import Mathlib

/-!
Verification of the toygarble boolean-circuit core (src/src/circuit.go):
the gate/circuit data model, the arity table, the circuit builder, the
structural validator, the memoized recursive evaluator with cycle
detection, and the byte-buffer/bit-vector codec.

Go slices are embedded as `List`, Go `int` indices as `Nat` (no negative
index is ever produced by the builder API), Go `byte` as `Nat` with
arithmetic reduced `% 256` where the source can overflow.  A Go runtime
panic (index out of range) is a distinguished `panicked` outcome; the
evaluator's recursion is driven by explicit fuel, with `fuelOut` proved
unreachable for the fuel the top-level evaluator supplies.
-/

set_option maxHeartbeats 1000000

namespace Toygarble

/-- Gate kinds: the closed enumeration of `GateType_t` constants
(`GateINPUT = 0` .. `GateCOPY = 7`). -/
inductive GateType_t where
  | GateINPUT
  | GateOUTPUT
  | GateAND
  | GateOR
  | GateNOT
  | GateXOR
  | GateCONST
  | GateCOPY
deriving DecidableEq, Repr

open GateType_t

/-- `min_input_wires = {0, 0, 2, 2, 1, 2, 0, 1}`, indexed by the kind's
numeric value `INPUT, OUTPUT, AND, OR, NOT, XOR, CONST, COPY`. -/
def min_input_wires : GateType_t → Nat
  | GateINPUT => 0
  | GateOUTPUT => 0
  | GateAND => 2
  | GateOR => 2
  | GateNOT => 1
  | GateXOR => 2
  | GateCONST => 0
  | GateCOPY => 1

/-- `max_input_wires = {0, 1, 2, 2, 1, 2, 0, 1}`. -/
def max_input_wires : GateType_t → Nat
  | GateINPUT => 0
  | GateOUTPUT => 1
  | GateAND => 2
  | GateOR => 2
  | GateNOT => 1
  | GateXOR => 2
  | GateCONST => 0
  | GateCOPY => 1

/-- One gate: kind, constant value (meaningful for `CONST`), and the ordered
list of predecessor gate indices (`InFrom`). -/
structure Gate where
  GateType : GateType_t
  ConstVal : Bool
  InFrom : List Nat
deriving DecidableEq, Repr

/-- The circuit: wire/variable bookkeeping plus the append-only gate list. -/
structure Circuit where
  NumInputWires : Nat
  NumOutputWires : Nat
  NumInputVars : Nat
  NumWiresIV : List Nat
  NumOutputVars : Nat
  NumWiresOV : List Nat
  Gates : List Gate
deriving DecidableEq, Repr

/-- `addGate`: rejects (returning the circuit unchanged and `-1`) a
predecessor list whose length is outside the kind's arity range; otherwise
appends the new gate and returns its index (`len(circ.Gates) - 1` after the
append, i.e. the old length). -/
def addGate (circ : Circuit) (gateType : GateType_t) (constVal : Bool)
    (inFrom : List Nat) : Circuit × Int :=
  if inFrom.length < min_input_wires gateType ∨ max_input_wires gateType < inFrom.length then
    (circ, -1)
  else
    ({ circ with Gates := circ.Gates ++ [⟨gateType, constVal, inFrom⟩] },
      (circ.Gates.length : Int))

/-- `addGate2`: convenience wrapper for the two-input case. -/
def addGate2 (circ : Circuit) (gateType : GateType_t) (inFrom1 inFrom2 : Nat) : Circuit × Int :=
  addGate circ gateType false [inFrom1, inFrom2]

/-- `initializeCircuit`: records the wire/variable counts as given, then
appends `numInputWires` `INPUT` gates followed by `numOutputWires` `OUTPUT`
gates (all with empty `InFrom`; those `addGate` calls always succeed). -/
def initializeCircuit (circ : Circuit) (numInputWires numOutputWires : Nat)
    (numInputVars numOutputVars : Nat) (numWiresPerIV numWiresPerOV : List Nat) : Circuit :=
  let c0 : Circuit :=
    { circ with
      NumInputWires := numInputWires
      NumOutputWires := numOutputWires
      NumInputVars := numInputVars
      NumOutputVars := numOutputVars
      NumWiresIV := numWiresPerIV
      NumWiresOV := numWiresPerOV }
  let c1 := (fun c => (addGate c GateINPUT false []).1)^[numInputWires] c0
  (fun c => (addGate c GateOUTPUT false []).1)^[numOutputWires] c1

/-- `getInputGate`: input wire `i` is gate `i`. -/
def getInputGate (_circ : Circuit) (inputWireNo : Nat) : Nat := inputWireNo

/-- `getOutputGate`: output wire `i` is gate `NumInputWires + i`. -/
def getOutputGate (circ : Circuit) (outputWireNo : Nat) : Nat :=
  circ.NumInputWires + outputWireNo

/-- `connectOutputWire`: wires `gateNum` into output slot `outputNum` if that
slot's gate still has no predecessor; returns `false` (no mutation) when the
slot is already wired.  `none` models the Go panic when the output gate index
is out of range of the gate list. -/
def connectOutputWire (circ : Circuit) (gateNum : Nat) (outputNum : Nat) :
    Option (Circuit × Bool) :=
  match circ.Gates[getOutputGate circ outputNum]? with
  | none => none
  | some g =>
    if g.InFrom.length = 0 then
      some ({ circ with
                Gates := circ.Gates.set (getOutputGate circ outputNum)
                  { g with InFrom := g.InFrom ++ [gateNum] } }, true)
    else
      some (circ, false)

/-- The per-gate arity check of `validCircuit`. -/
def gateArityOK (g : Gate) : Bool :=
  !(decide (g.InFrom.length < min_input_wires g.GateType)
    || decide (max_input_wires g.GateType < g.InFrom.length))

/-- `validCircuit`: gate count at least `NumInputWires + NumOutputWires`, and
every gate's fan-in length within its kind's arity range. -/
def validCircuit (circ : Circuit) : Bool :=
  if circ.Gates.length < circ.NumInputWires + circ.NumOutputWires then false
  else circ.Gates.all gateArityOK

/-! ### Evaluator -/

/-- The three scratch vectors of `EvaluateCircuit`, all of length
`len(circ.Gates)`: the DFS stack marks, the memo marks, the memoized values. -/
structure EvalSt where
  visited : List Bool
  calculated : List Bool
  values : List Bool
deriving DecidableEq, Repr

/-- Outcome of one (recursive) `evaluateGate` call: a Go panic, fuel
exhaustion (proved unreachable for the evaluator's fuel), or the returned
`(success, result)` pair together with the mutated scratch state. -/
inductive GRes where
  | panicked : GRes
  | fuelOut : GRes
  | out : Bool → Bool → EvalSt → GRes
deriving DecidableEq, Repr

/-- The `switch` on gate kind at the end of `evaluateGate`, computing the
`(success, result)` pair from the recursion results.  `none` is the Go panic
reading `inputs[gateID]` out of range.  `success` starts `true` and `result`
starts `false`; a branch that does not set them leaves those defaults, in
particular a CONST gate with nonempty `InFrom` "succeeds" with `false`. -/
def dispatchGate (inputs : List Bool) (gate : Gate) (gateID : Nat)
    (success1 result1 success2 result2 : Bool) : Option (Bool × Bool) :=
  match gate.GateType with
  | GateINPUT =>
    match inputs[gateID]? with
    | none => none
    | some b => some (true, b)
  | GateOUTPUT =>
    if gate.InFrom.length = 1 then some (success1, result1) else some (false, false)
  | GateCOPY =>
    if gate.InFrom.length = 1 then some (success1, result1) else some (false, false)
  | GateAND =>
    if gate.InFrom.length = 2 then
      if success1 && success2 then some (true, result1 && result2) else some (false, false)
    else some (false, false)
  | GateXOR =>
    if gate.InFrom.length = 2 then
      if success1 && success2 then some (true, result1 != result2) else some (false, false)
    else some (false, false)
  | GateCONST =>
    if gate.InFrom.length = 0 then some (true, gate.ConstVal) else some (true, false)
  | GateOR =>
    if gate.InFrom.length = 2 then
      if success1 && success2 then some (true, result1 || result2) else some (false, false)
    else some (false, false)
  | GateNOT =>
    if gate.InFrom.length = 1 then
      if success1 then some (true, !result1) else some (false, false)
    else some (false, false)

/-- The tail of `evaluateGate`: on success memoize (`calculated[gateID] = true`,
`values[gateID] = result`, panicking when out of range); on failure leave the
state unchanged. -/
def memoStep (gateID : Nat) (success result : Bool) (st : EvalSt) : GRes :=
  if success then
    if gateID < st.calculated.length ∧ gateID < st.values.length then
      .out true result
        { st with
          calculated := st.calculated.set gateID true
          values := st.values.set gateID result }
    else .panicked
  else .out false result st

/-- `evaluateGate`, the recursive subroutine: cycle check, memo check, mark
visited, recurse unconditionally on `InFrom[0]` for every non-INPUT gate (and
on `InFrom[1]` when the fan-in is exactly 2), then dispatch on kind and
memoize.  `InFrom[0]` on an empty predecessor list is a panic, exactly as in
the source. -/
def evaluateGate (circ : Circuit) (inputs : List Bool) : Nat → Nat → EvalSt → GRes
  | 0, _, _ => .fuelOut
  | fuel + 1, gateID, st =>
    match st.visited[gateID]?, st.calculated[gateID]? with
    | some v, some cal =>
      if v && !cal then .out false false st
      else if cal then
        match st.values[gateID]? with
        | some value => .out true value st
        | none => .panicked
      else
        let st1 : EvalSt := { st with visited := st.visited.set gateID true }
        match circ.Gates[gateID]? with
        | none => .panicked
        | some gate =>
          if gate.GateType = GateINPUT then
            match dispatchGate inputs gate gateID false false false false with
            | none => .panicked
            | some (success, result) => memoStep gateID success result st1
          else
            match gate.InFrom[0]? with
            | none => .panicked
            | some p1 =>
              match evaluateGate circ inputs fuel p1 st1 with
              | .panicked => .panicked
              | .fuelOut => .fuelOut
              | .out success1 result1 st2 =>
                if gate.InFrom.length = 2 then
                  match gate.InFrom[1]? with
                  | none => .panicked
                  | some p2 =>
                    match evaluateGate circ inputs fuel p2 st2 with
                    | .panicked => .panicked
                    | .fuelOut => .fuelOut
                    | .out success2 result2 st3 =>
                      match dispatchGate inputs gate gateID success1 result1 success2 result2 with
                      | none => .panicked
                      | some (success, result) => memoStep gateID success result st3
                else
                  match dispatchGate inputs gate gateID success1 result1 false false with
                  | none => .panicked
                  | some (success, result) => memoStep gateID success result st2
    | _, _ => .panicked

/-- Outcome of `EvaluateCircuit`: Go returns `(bool, []bool)`, where failure
is `(false, nil)`; a panic and fuel exhaustion are distinguished. -/
inductive EvalOut where
  | panicked : EvalOut
  | fuelOut : EvalOut
  | failed : EvalOut
  | ok : List Bool → EvalOut
deriving DecidableEq, Repr

/-- The per-output-wire loop of `EvaluateCircuit`: reset `visited` (but not
`calculated`/`values`), evaluate the output gate, abort the whole evaluation
on failure. -/
def evalLoop (circ : Circuit) (inputBits : List Bool) :
    Nat → Nat → EvalSt → List Bool → EvalOut
  | _, 0, _, result => .ok result
  | i, remaining + 1, st, result =>
    let st1 : EvalSt := { st with visited := List.replicate circ.Gates.length false }
    match evaluateGate circ inputBits (circ.Gates.length + 1) (getOutputGate circ i) st1 with
    | .panicked => .panicked
    | .fuelOut => .fuelOut
    | .out success resultBit st2 =>
      if success then evalLoop circ inputBits (i + 1) remaining st2 (result ++ [resultBit])
      else .failed

/-- `EvaluateCircuit`: shape check, then evaluate each output wire in order
with shared memo state. -/
def EvaluateCircuit (circ : Circuit) (inputBits : List Bool) : EvalOut :=
  if inputBits.length ≠ circ.NumInputWires ∨ circ.NumOutputWires < 1 then .failed
  else
    evalLoop circ inputBits 0 circ.NumOutputWires
      { visited := List.replicate circ.Gates.length false
        calculated := List.replicate circ.Gates.length false
        values := List.replicate circ.Gates.length false } []

/-! ### Bit codec -/

/-- Outcome of `PadInputsToBoolArray`: Go returns `[]bool`, `nil` on the two
checked failures; an out-of-range write is a panic. -/
inductive PadOut where
  | panicked : PadOut
  | failNil : PadOut
  | ok : List Bool → PadOut
deriving DecidableEq, Repr

/-- The bit extracted for wire offset `j` of a variable packed from `buf`:
bit `j % 8` of byte `len(buf) - j/8 - 1` (the last byte is least
significant), `false` past the end of the buffer.  This is the expression
`int(inputBufs[i][len(inputBufs[i]) - (j/8) - 1]) & (1 << (j % 8)) != 0`. -/
def bufBit (buf : List Nat) (j : Nat) : Bool :=
  if j / 8 < buf.length then
    (buf.getD (buf.length - j / 8 - 1) 0) &&& (1 <<< (j % 8)) != 0
  else
    false

/-- The inner loop of `PadInputsToBoolArray` for one variable: write
`wiresLeft` wire bits starting at offset `j` of the buffer into `result`
starting at `loc`.  `none` models the Go panic when `result[currentLoc]` is
out of range. -/
def padWires (buf : List Nat) : Nat → Nat → Nat → List Bool → Option (Nat × List Bool)
  | 0, _, loc, result => some (loc, result)
  | wiresLeft + 1, j, loc, result =>
    if loc < result.length then
      padWires buf wiresLeft (j + 1) (loc + 1) (result.set loc (bufBit buf j))
    else
      none

/-- The outer loop of `PadInputsToBoolArray` over the given buffers, `i`
the absolute variable index: panic when `NumWiresIV[i]` is out of range,
`nil` when a buffer's bit length exceeds the variable's wire count. -/
def padVars (circ : Circuit) : List (List Nat) → Nat → Nat → List Bool → PadOut
  | [], _, _, result => .ok result
  | buf :: rest, i, loc, result =>
    match circ.NumWiresIV[i]? with
    | none => .panicked
    | some w =>
      if w < buf.length * 8 then .failNil
      else
        match padWires buf w 0 loc result with
        | none => .panicked
        | some (loc', result') => padVars circ rest (i + 1) loc' result'

/-- `PadInputsToBoolArray`: checks `len(inputBufs) ≤ NumInputVars`, then
unpacks each buffer into the next contiguous block of
`NumWiresIV[i]` wires of a `NumInputWires`-sized result. -/
def PadInputsToBoolArray (circ : Circuit) (inputBufs : List (List Nat)) : PadOut :=
  if circ.NumInputVars < inputBufs.length then .failNil
  else padVars circ inputBufs 0 0 (List.replicate circ.NumInputWires false)

/-- The loop of `boolArrayToBytes`: for each set bit `i` of the input add
`1 << (i % 8)` to byte `len(result) - i/8 - 1`; Go `byte` addition wraps,
hence the `% 256`. -/
def boolBytesLoop (resultLen : Nat) : List Bool → Nat → List Nat → List Nat
  | [], _, result => result
  | b :: rest, i, result =>
    boolBytesLoop resultLen rest (i + 1)
      (if b then
        result.set (resultLen - i / 8 - 1)
          ((result.getD (resultLen - i / 8 - 1) 0 + (1 <<< (i % 8))) % 256)
      else result)

/-- `boolArrayToBytes`: pack a bit vector into `ceil(len/8)` bytes, the last
byte least significant. -/
def boolArrayToBytes (input : List Bool) : List Nat :=
  boolBytesLoop ((input.length + 7) / 8) input 0 (List.replicate ((input.length + 7) / 8) 0)

/-- Outcome of `DecodeOutputVariables`: `nil` on the length check, panic on
an out-of-range `NumWiresOV` read or slice. -/
inductive DecOut where
  | panicked : DecOut
  | failNil : DecOut
  | ok : List (List Nat) → DecOut
deriving DecidableEq, Repr

/-- The loop of `DecodeOutputVariables` over output variables (`varsLeft`
counts down from `NumOutputVars`, `i` is the absolute variable index). -/
def decodeVars (circ : Circuit) (outWires : List Bool) :
    Nat → Nat → Nat → List (List Nat) → DecOut
  | 0, _, _, acc => .ok acc
  | varsLeft + 1, i, currentWire, acc =>
    match circ.NumWiresOV[i]? with
    | none => .panicked
    | some w =>
      if currentWire + w ≤ outWires.length then
        decodeVars circ outWires varsLeft (i + 1) (currentWire + w)
          (acc ++ [boolArrayToBytes ((outWires.drop currentWire).take w)])
      else .panicked

/-- `DecodeOutputVariables`: checks the wire count, then slices the output
bit vector per output variable and packs each slice into bytes. -/
def DecodeOutputVariables (circ : Circuit) (outWires : List Bool) : DecOut :=
  if circ.NumOutputWires ≠ outWires.length then .failNil
  else decodeVars circ outWires circ.NumOutputVars 0 0 []

/-- Strip leading zero bytes: "trimmed back to minimal bytes" in the
round-trip property. -/
def trimBytes (bytes : List Nat) : List Nat :=
  bytes.dropWhile (fun b => b == 0)

/-! ### The evaluator's traversal graph -/

/-- One edge of the evaluator's traversal: gate `a` is not an INPUT gate and
`b` is one of its predecessors.  The recursion of `evaluateGate` descends
exactly along these edges.  Note that every gate on a `stepT`-cycle is
non-INPUT. -/
def stepT (circ : Circuit) (a b : Nat) : Prop :=
  ∃ g, circ.Gates[a]? = some g ∧ g.GateType ≠ GateINPUT ∧ b ∈ g.InFrom

/-- A reference cycle among non-INPUT gates that the evaluation of output
wire `o` can reach: some gate `a` reachable from the output gate of `o`
lies on a `stepT`-cycle. -/
def reachableCycle (circ : Circuit) : Prop :=
  ∃ o < circ.NumOutputWires, ∃ a,
    Relation.ReflTransGen (stepT circ) (getOutputGate circ o) a ∧
      Relation.TransGen (stepT circ) a a

/-- The set of memoized gates is closed under predecessors: whatever is
marked `calculated` has all its `InFrom` references marked `calculated`. -/
def DoneClosed (circ : Circuit) (st : EvalSt) : Prop :=
  ∀ (g : Nat) (gate : Gate), st.calculated[g]? = some true → circ.Gates[g]? = some gate →
    ∀ p ∈ gate.InFrom, st.calculated[p]? = some true

/-- No gate on a `stepT`-cycle is memoized. -/
def CycFree (circ : Circuit) (st : EvalSt) : Prop :=
  ∀ x, Relation.TransGen (stepT circ) x x → st.calculated[x]? ≠ some true

/-- How one `evaluateGate` call evolves the scratch state: lengths are
preserved, `visited` and `calculated` marks only ever go from `false` to
`true`. -/
def Evolves (st st' : EvalSt) : Prop :=
  st'.visited.length = st.visited.length ∧
  st'.calculated.length = st.calculated.length ∧
  st'.values.length = st.values.length ∧
  (∀ i : Nat, st.visited[i]? = some true → st'.visited[i]? = some true) ∧
  (∀ i : Nat, st.calculated[i]? = some true → st'.calculated[i]? = some true)

/-! ### Concrete circuits used by individual claims -/

/-- The zero value of `Circuit`, the receiver `initializeCircuit` starts from. -/
def emptyCircuit : Circuit := ⟨0, 0, 0, [], 0, [], []⟩

/-- No input wires, one output wire, a CONST(true) gate wired to the output:
gates `[OUTPUT [1], CONST []]`. -/
def constCircuit : Circuit :=
  let c := initializeCircuit emptyCircuit 0 1 0 1 [] [1]
  let c := (addGate c GateCONST true []).1
  match connectOutputWire c 1 0 with
  | some p => p.1
  | none => c

/-- One input wire and one output wire, the output slot never wired: the
validator accepts it (OUTPUT fan-in 0 is within 0..1). -/
def unwiredOutputCircuit : Circuit :=
  initializeCircuit emptyCircuit 1 1 1 1 [1] [1]

/-- A validator-accepted circuit whose single input variable claims 9 wires
while the circuit has only 1 input wire. -/
def overWiredVarsCircuit : Circuit :=
  ⟨1, 0, 1, [9], 0, [], [⟨GateINPUT, false, []⟩]⟩

/-- Identity wiring on wire 0 (gate 2 copies the input into the output) plus
a self-looping COPY gate 3 that no output reaches. -/
def hiddenCycleCircuit : Circuit :=
  let c := initializeCircuit emptyCircuit 1 1 1 1 [1] [1]
  let c := (addGate c GateCOPY false [0]).1
  let c := (addGate c GateCOPY false [3]).1
  match connectOutputWire c 2 0 with
  | some p => p.1
  | none => c

/-- A self-looping COPY gate wired to the single output wire: a reference
cycle the evaluation of output 0 reaches. -/
def loopedOutputCircuit : Circuit :=
  let c := initializeCircuit emptyCircuit 1 1 1 1 [1] [1]
  let c := (addGate c GateCOPY false [2]).1
  match connectOutputWire c 2 0 with
  | some p => p.1
  | none => c

/-- A circuit with a single 8-wire input variable (the packing example). -/
def byteVarCircuit : Circuit := ⟨8, 0, 1, [8], 0, [], []⟩

/-! ### The identity circuit -/

/-- Gate `k` of the `n`-wire identity circuit: gates `0..n-1` are the INPUT
gates, `n..2n-1` the OUTPUT gates (output `i` wired to gate `2n+i`), and
`2n..3n-1` one COPY gate per wire (`2n+i` copies input gate `i`). -/
def identityGateAt (n k : Nat) : Gate :=
  if k < n then ⟨GateINPUT, false, []⟩
  else if k < 2 * n then ⟨GateOUTPUT, false, [2 * n + (k - n)]⟩
  else ⟨GateCOPY, false, [k - 2 * n]⟩

/-- The identity circuit: one COPY gate per input wire, wired straight to
the matching output wire; a single input variable and a single output
variable spanning all `n` wires. -/
def identityCircuit (n : Nat) : Circuit :=
  ⟨n, n, 1, [n], 1, [n], (List.range (3 * n)).map (identityGateAt n)⟩

/-! ## Theorems -/

/-- C5: for every gate kind and every predecessor list, `addGate` fails
(returning `-1`) and leaves the circuit unchanged when the list's length is
outside the kind's arity range from the fixed table (INPUT 0..0, OUTPUT 0..1,
AND/OR/XOR 2..2, NOT/COPY 1..1, CONST 0..0); on success it appends exactly
one gate and returns that gate's index. -/
theorem C5_addGate_arity (circ : Circuit) (k : GateType_t) (v : Bool) (l : List Nat) :
    (min_input_wires GateINPUT = 0 ∧ max_input_wires GateINPUT = 0 ∧
      min_input_wires GateOUTPUT = 0 ∧ max_input_wires GateOUTPUT = 1 ∧
      min_input_wires GateAND = 2 ∧ max_input_wires GateAND = 2 ∧
      min_input_wires GateOR = 2 ∧ max_input_wires GateOR = 2 ∧
      min_input_wires GateNOT = 1 ∧ max_input_wires GateNOT = 1 ∧
      min_input_wires GateXOR = 2 ∧ max_input_wires GateXOR = 2 ∧
      min_input_wires GateCONST = 0 ∧ max_input_wires GateCONST = 0 ∧
      min_input_wires GateCOPY = 1 ∧ max_input_wires GateCOPY = 1) ∧
    (l.length < min_input_wires k ∨ max_input_wires k < l.length →
      addGate circ k v l = (circ, -1)) ∧
    (min_input_wires k ≤ l.length → l.length ≤ max_input_wires k →
      addGate circ k v l =
        ({ circ with Gates := circ.Gates ++ [⟨k, v, l⟩] }, (circ.Gates.length : Int))) := by
  refine ⟨by decide, fun h => ?_, fun h1 h2 => ?_⟩
  · unfold addGate
    rw [if_pos h]
  · unfold addGate
    rw [if_neg (by omega)]

/-- C5 witness: a concrete rejection (an AND gate with no predecessors) and a
concrete success (an AND gate with two predecessors). -/
theorem C5_addGate_arity_witness :
    addGate emptyCircuit GateAND false [] = (emptyCircuit, -1) ∧
    addGate emptyCircuit GateAND false [0, 1] =
      ({ emptyCircuit with Gates := [⟨GateAND, false, [0, 1]⟩] }, 0) := by
  constructor
  · exact (C5_addGate_arity emptyCircuit GateAND false []).2.1 (by decide)
  · exact (C5_addGate_arity emptyCircuit GateAND false [0, 1]).2.2 (by decide) (by decide)

/-- C6: `connectOutputWire` returns `false` and leaves the circuit unchanged
when the targeted output slot already has a predecessor recorded; on a first
wiring it records the predecessor and returns `true`. -/
theorem C6_connectOutputWire_once (circ : Circuit) (gateNum outputNum : Nat) (g : Gate)
    (h : circ.Gates[getOutputGate circ outputNum]? = some g) :
    (g.InFrom ≠ [] → connectOutputWire circ gateNum outputNum = some (circ, false)) ∧
    (g.InFrom = [] → connectOutputWire circ gateNum outputNum =
      some ({ circ with
        Gates := circ.Gates.set (getOutputGate circ outputNum) ⟨g.GateType, g.ConstVal, [gateNum]⟩ },
        true)) := by
  constructor
  · intro hne
    unfold connectOutputWire
    rw [h]
    simp only [List.length_eq_zero]
    rw [if_neg hne]
  · intro he
    unfold connectOutputWire
    rw [h]
    simp only [List.length_eq_zero]
    rw [if_pos he, he]
    rfl

/-- C6 witness: wiring the fresh output slot of `unwiredOutputCircuit`
succeeds, and wiring the already-wired output slot of `loopedOutputCircuit`
fails without mutation. -/
theorem C6_connectOutputWire_once_witness :
    connectOutputWire unwiredOutputCircuit 0 0 =
      some ({ unwiredOutputCircuit with
        Gates := unwiredOutputCircuit.Gates.set 1 ⟨GateOUTPUT, false, [0]⟩ }, true) ∧
    connectOutputWire loopedOutputCircuit 2 0 = some (loopedOutputCircuit, false) := by
  constructor
  · exact (C6_connectOutputWire_once unwiredOutputCircuit 0 0 ⟨GateOUTPUT, false, []⟩
      (by decide)).2 (by decide)
  · exact (C6_connectOutputWire_once loopedOutputCircuit 2 0 ⟨GateOUTPUT, false, [2]⟩
      (by decide)).1 (by decide)

/-- C7: `EvaluateCircuit` fails cleanly (no panic, no partial result) for
every input vector whose length differs from `NumInputWires` and for every
circuit with fewer than one output wire, before any gate is touched. -/
theorem C7_evaluate_shape_check (circ : Circuit) (inputBits : List Bool)
    (h : inputBits.length ≠ circ.NumInputWires ∨ circ.NumOutputWires < 1) :
    EvaluateCircuit circ inputBits = .failed := by
  unfold EvaluateCircuit
  rw [if_pos h]

/-- C7 witness: a too-short vector, a too-long vector, and a circuit without
output wires. -/
theorem C7_evaluate_shape_check_witness :
    EvaluateCircuit unwiredOutputCircuit [] = .failed ∧
    EvaluateCircuit unwiredOutputCircuit [true, false] = .failed ∧
    EvaluateCircuit emptyCircuit [] = .failed := by
  refine ⟨?_, ?_, ?_⟩
  · exact C7_evaluate_shape_check unwiredOutputCircuit [] (by decide)
  · exact C7_evaluate_shape_check unwiredOutputCircuit [true, false] (by decide)
  · exact C7_evaluate_shape_check emptyCircuit [] (by decide)

/-- C8: `validCircuit` returns `false` exactly when the gate count is below
`NumInputWires + NumOutputWires` or some gate's fan-in length falls outside
its kind's arity range (and `true` otherwise; it is a pure function of the
circuit, so repeated calls agree). -/
theorem C8_validCircuit_false_iff (circ : Circuit) :
    validCircuit circ = false ↔
      (circ.Gates.length < circ.NumInputWires + circ.NumOutputWires ∨
        ∃ g ∈ circ.Gates,
          g.InFrom.length < min_input_wires g.GateType ∨
            max_input_wires g.GateType < g.InFrom.length) := by
  unfold validCircuit
  split
  · rename_i h
    simp only [true_iff]
    exact Or.inl h
  · rename_i h
    simp only [List.all_eq_false]
    constructor
    · rintro ⟨g, hg, hbad⟩
      simp [gateArityOK] at hbad
      exact Or.inr ⟨g, hg, by omega⟩
    · rintro (hlen | ⟨g, hg, hbad⟩)
      · exact absurd hlen h
      · refine ⟨g, hg, ?_⟩
        simp [gateArityOK]
        omega

/-- C1: a validator-accepted circuit whose single output wire is fed by a
CONST(true) gate.  The claim (and the source's own `GateCONST` case, which
would return the stored constant) expects evaluation to succeed with the
constant; instead the unconditional recursion into `InFrom[0]` of every
non-INPUT gate indexes the CONST gate's empty predecessor list, a Go panic.
The `GateCONST` branch of the switch is unreachable for arity-correct CONST
gates. -/
theorem C1_const_gate_panics :
    validCircuit constCircuit = true ∧
    constCircuit.Gates[1]? = some ⟨GateCONST, true, []⟩ ∧
    constCircuit.Gates[getOutputGate constCircuit 0]? = some ⟨GateOUTPUT, false, [1]⟩ ∧
    EvaluateCircuit constCircuit [] = .panicked := by
  refine ⟨by decide, by decide, by decide, by decide⟩

/-- C9: the validator accepts an OUTPUT gate with an empty predecessor list
(fan-in 0 lies in OUTPUT's 0..1 range), and evaluating that circuit reaches
the unguarded `InFrom[0]` read: evaluation of a validator-accepted circuit
panics instead of failing cleanly. -/
theorem C9_unwired_output_panics :
    validCircuit unwiredOutputCircuit = true ∧
    unwiredOutputCircuit.Gates[getOutputGate unwiredOutputCircuit 0]? =
      some ⟨GateOUTPUT, false, []⟩ ∧
    EvaluateCircuit unwiredOutputCircuit [true] = .panicked := by
  refine ⟨by decide, by decide, by decide⟩

/-- C10: the initializer records per-variable input wire counts without
validation and the validator ignores them; on a circuit whose counts sum to
9 > NumInputWires = 1, `PadInputsToBoolArray` runs its write index past the
end of the result vector and panics instead of returning a failure. -/
theorem C10_pack_write_overflow_panics :
    validCircuit overWiredVarsCircuit = true ∧
    overWiredVarsCircuit.NumWiresIV.sum = 9 ∧
    overWiredVarsCircuit.NumInputWires = 1 ∧
    PadInputsToBoolArray overWiredVarsCircuit [[1]] = .panicked := by
  refine ⟨by decide, by decide, by decide, by decide⟩

/-- C2 counterexample: `hiddenCycleCircuit` is valid, contains a reference
cycle among non-INPUT gates (the self-looping COPY gate 3), takes the input
vector `[true]` of length `NumInputWires`, and yet `evaluate` returns a
result: the cycle is never reached from the only output wire, so the claim
as stated (every circuit with such a cycle fails) is false. -/
theorem C2_unreachable_cycle_evaluates_ok :
    validCircuit hiddenCycleCircuit = true ∧
    (∃ a, Relation.TransGen (stepT hiddenCycleCircuit) a a) ∧
    EvaluateCircuit hiddenCycleCircuit [true] = .ok [true] := by
  refine ⟨by decide, ⟨3, Relation.TransGen.single ?_⟩, by decide⟩
  exact ⟨⟨GateCOPY, false, [3]⟩, by decide, by decide, by decide⟩

/-! ### State-evolution lemmas for the evaluator -/

theorem evolves_refl (st : EvalSt) : Evolves st st :=
  ⟨rfl, rfl, rfl, fun _ h => h, fun _ h => h⟩

theorem evolves_trans {s1 s2 s3 : EvalSt} (h1 : Evolves s1 s2) (h2 : Evolves s2 s3) :
    Evolves s1 s3 := by
  obtain ⟨a1, b1, c1, d1, e1⟩ := h1
  obtain ⟨a2, b2, c2, d2, e2⟩ := h2
  exact ⟨a2.trans a1, b2.trans b1, c2.trans c1,
    fun i h => d2 i (d1 i h), fun i h => e2 i (e1 i h)⟩

theorem getElem?_set_keeps_some_true {l : List Bool} {g i : Nat}
    (h : l[i]? = some true) : (l.set g true)[i]? = some true := by
  rcases eq_or_ne g i with rfl | hne
  · obtain ⟨hlt, -⟩ := List.getElem?_eq_some.mp h
    rw [List.getElem?_set_self hlt]
  · rw [List.getElem?_set_ne hne]
    exact h

theorem evolves_set_visited (st : EvalSt) (g : Nat) :
    Evolves st { st with visited := st.visited.set g true } :=
  ⟨List.length_set .., rfl, rfl, fun _ h => getElem?_set_keeps_some_true h, fun _ h => h⟩

theorem evolves_memo (st : EvalSt) (g : Nat) (r : Bool) :
    Evolves st
      { st with calculated := st.calculated.set g true, values := st.values.set g r } :=
  ⟨rfl, List.length_set .., List.length_set .., fun _ h => h,
    fun _ h => getElem?_set_keeps_some_true h⟩

theorem count_false_set_true : ∀ (l : List Bool) (g : Nat), l[g]? = some false →
    (l.set g true).count false + 1 = l.count false
  | [], g, h => by simp at h
  | a :: as, 0, h => by
    simp only [List.getElem?_cons_zero, Option.some.injEq] at h
    subst h
    simp [List.count_cons]
  | a :: as, g + 1, h => by
    simp only [List.getElem?_cons_succ] at h
    have ih := count_false_set_true as g h
    simp only [List.set_cons_succ, List.count_cons]
    omega

theorem count_false_mono : ∀ (l l' : List Bool), l'.length = l.length →
    (∀ i : Nat, l[i]? = some true → l'[i]? = some true) → l'.count false ≤ l.count false
  | [], [], _, _ => le_rfl
  | [], _ :: _, hlen, _ => by simp at hlen
  | _ :: _, [], hlen, _ => by simp at hlen
  | a :: as, b :: bs, hlen, hmono => by
    have hlen' : bs.length = as.length := by simpa using hlen
    have hmono' : ∀ i : Nat, as[i]? = some true → bs[i]? = some true := fun i h => by
      simpa using hmono (i + 1) (by simpa using h)
    have ht := count_false_mono as bs hlen' hmono'
    cases a with
    | true =>
      have hb : b = true := by simpa using hmono 0 (by simp)
      subst hb
      simpa [List.count_cons] using ht
    | false =>
      cases b <;> simp [List.count_cons] <;> omega

theorem evolves_count_false_le {st st' : EvalSt} (h : Evolves st st') :
    st'.visited.count false ≤ st.visited.count false :=
  count_false_mono _ _ h.1 h.2.2.2.1

theorem memoStep_out {gateID : Nat} {success result s r : Bool} {st st' : EvalSt}
    (h : memoStep gateID success result st = .out s r st') :
    st' = st ∨
      st' = { st with calculated := st.calculated.set gateID true,
                      values := st.values.set gateID r } := by
  unfold memoStep at h
  split at h
  · split at h
    · obtain ⟨-, rfl, rfl⟩ := GRes.out.inj h
      exact Or.inr rfl
    · simp at h
  · obtain ⟨-, rfl, rfl⟩ := GRes.out.inj h
    exact Or.inl rfl

theorem evalGate_out_evolves (circ : Circuit) (inputs : List Bool) :
    ∀ (fuel gateID : Nat) (st : EvalSt) (s r : Bool) (st' : EvalSt),
      evaluateGate circ inputs fuel gateID st = .out s r st' → Evolves st st'
  | 0, gateID, st, s, r, st' => by
    intro h
    simp [evaluateGate] at h
  | fuel + 1, gateID, st, s, r, st' => by
    intro h
    have memoCase : ∀ (st0 : EvalSt) (success result : Bool),
        Evolves st st0 → memoStep gateID success result st0 = .out s r st' →
        Evolves st st' := by
      intro st0 success result hev hm
      rcases memoStep_out hm with rfl | rfl
      · exact hev
      · exact evolves_trans hev (evolves_memo st0 gateID r)
    simp only [evaluateGate] at h
    split at h
    case h_2 => simp at h
    case h_1 v cal hv hc =>
      split at h
      · obtain ⟨-, -, rfl⟩ := GRes.out.inj h
        exact evolves_refl st
      split at h
      · -- memo hit
        split at h
        · obtain ⟨-, -, rfl⟩ := GRes.out.inj h
          exact evolves_refl st
        · simp at h
      · -- main evaluation
        split at h
        · simp at h
        case h_2 gate hGate =>
          split at h
          · -- INPUT gate
            split at h
            · simp at h
            case h_2 success result hd =>
              exact memoCase _ _ _ (evolves_set_visited st gateID) h
          · -- non-INPUT gate
            split at h
            · simp at h
            case h_2 p1 hp1 =>
              split at h
              · simp at h
              · simp at h
              case h_3 success1 result1 st2 heq1 =>
                have e1 : Evolves st st2 :=
                  evolves_trans (evolves_set_visited st gateID)
                    (evalGate_out_evolves circ inputs fuel p1 _ _ _ _ heq1)
                split at h
                · -- two predecessors
                  split at h
                  · simp at h
                  case h_2 p2 hp2 =>
                    split at h
                    · simp at h
                    · simp at h
                    case h_3 success2 result2 st3 heq2 =>
                      have e2 : Evolves st st3 :=
                        evolves_trans e1
                          (evalGate_out_evolves circ inputs fuel p2 _ _ _ _ heq2)
                      split at h
                      · simp at h
                      case h_2 success result hd =>
                        exact memoCase _ _ _ e2 h
                · -- one predecessor
                  split at h
                  · simp at h
                  case h_2 success result hd =>
                    exact memoCase _ _ _ e1 h

theorem memoStep_ne_fuelOut {gateID : Nat} {success result : Bool} {st : EvalSt} :
    memoStep gateID success result st ≠ .fuelOut := by
  unfold memoStep
  split
  · split <;> simp
  · simp

theorem memoStep_out_true {gateID : Nat} {success result r : Bool} {st st' : EvalSt}
    (h : memoStep gateID success result st = .out true r st') :
    st'.calculated[gateID]? = some true := by
  unfold memoStep at h
  split at h
  · split at h
    · rename_i hb
      obtain ⟨-, -, rfl⟩ := GRes.out.inj h
      exact List.getElem?_set_self hb.1
    · simp at h
  · simp at h

/-- A gate that is on the recursion stack (`visited` but not `calculated`)
when `evaluateGate` is entered is still un-`calculated` when the call
returns: every nested call on it takes the cycle-detection early exit. -/
theorem evalGate_keeps_stuck (circ : Circuit) (inputs : List Bool) :
    ∀ (fuel gateID : Nat) (st : EvalSt) (s r : Bool) (st' : EvalSt) (x : Nat),
      evaluateGate circ inputs fuel gateID st = .out s r st' →
      st.visited[x]? = some true → st.calculated[x]? = some false →
      st'.calculated[x]? = some false ∧ st'.visited[x]? = some true
  | 0, gateID, st, s, r, st', x => by
    intro h _ _
    simp [evaluateGate] at h
  | fuel + 1, gateID, st, s, r, st', x => by
    intro h hxv hxc
    simp only [evaluateGate] at h
    split at h
    case h_2 => simp at h
    case h_1 v cal hv hc =>
      split at h
      · obtain ⟨-, -, rfl⟩ := GRes.out.inj h
        exact ⟨hxc, hxv⟩
      rename_i hnotcycle
      split at h
      · split at h
        · obtain ⟨-, -, rfl⟩ := GRes.out.inj h
          exact ⟨hxc, hxv⟩
        · simp at h
      · rename_i hnotcal
        have hcalf : cal = false := by
          cases cal
          · rfl
          · exact absurd rfl hnotcal
        have hvf : v = false := by
          subst hcalf
          cases v
          · rfl
          · simp at hnotcycle
        have hxg : gateID ≠ x := by
          intro heq
          rw [heq, hxv] at hv
          rw [hvf] at hv
          exact Bool.noConfusion (Option.some.inj hv)
        have hxv1 : (st.visited.set gateID true)[x]? = some true := by
          rw [List.getElem?_set_ne hxg]
          exact hxv
        have memoCase : ∀ (st0 : EvalSt) (success result : Bool),
            st0.calculated[x]? = some false → st0.visited[x]? = some true →
            memoStep gateID success result st0 = .out s r st' →
            st'.calculated[x]? = some false ∧ st'.visited[x]? = some true := by
          intro st0 success result h1 h2 hm
          rcases memoStep_out hm with rfl | rfl
          · exact ⟨h1, h2⟩
          · refine ⟨?_, h2⟩
            rw [List.getElem?_set_ne hxg]
            exact h1
        split at h
        · simp at h
        case h_2 gate hGate =>
          split at h
          · -- INPUT gate
            split at h
            · simp at h
            · exact memoCase { st with visited := st.visited.set gateID true } _ _ hxc hxv1 h
          · -- non-INPUT gate
            split at h
            · simp at h
            case h_2 p1 hp1 =>
              split at h
              · simp at h
              · simp at h
              case h_3 success1 result1 st2 heq1 =>
                obtain ⟨hxc2, hxv2⟩ :=
                  evalGate_keeps_stuck circ inputs fuel p1 _ _ _ _ x heq1 hxv1 hxc
                split at h
                · split at h
                  · simp at h
                  case h_2 p2 hp2 =>
                    split at h
                    · simp at h
                    · simp at h
                    case h_3 success2 result2 st3 heq2 =>
                      obtain ⟨hxc3, hxv3⟩ :=
                        evalGate_keeps_stuck circ inputs fuel p2 _ _ _ _ x heq2 hxv2 hxc2
                      split at h
                      · simp at h
                      · exact memoCase _ _ _ hxc3 hxv3 h
                · split at h
                  · simp at h
                  · exact memoCase _ _ _ hxc2 hxv2 h

/-- With more fuel than there are unvisited gates, `evaluateGate` cannot run
out of fuel: each recursion level first marks an unvisited gate visited. -/
theorem evalGate_no_fuelOut (circ : Circuit) (inputs : List Bool) :
    ∀ (fuel gateID : Nat) (st : EvalSt),
      st.visited.count false < fuel → evaluateGate circ inputs fuel gateID st ≠ .fuelOut
  | 0, gateID, st => by
    intro hcount
    exact absurd hcount (Nat.not_lt_zero _)
  | fuel + 1, gateID, st => by
    intro hcount h
    simp only [evaluateGate] at h
    split at h
    case h_2 => simp at h
    case h_1 v cal hv hc =>
      split at h
      · simp at h
      rename_i hnotcycle
      split at h
      · split at h <;> simp at h
      · rename_i hnotcal
        have hcalf : cal = false := by
          cases cal
          · rfl
          · exact absurd rfl hnotcal
        have hvf : v = false := by
          subst hcalf
          cases v
          · rfl
          · simp at hnotcycle
        have hvfalse : st.visited[gateID]? = some false := by
          rw [hv, hvf]
        have hcount1 : (st.visited.set gateID true).count false + 1 =
            st.visited.count false := count_false_set_true _ _ hvfalse
        have hcount1' : (st.visited.set gateID true).count false < fuel := by omega
        split at h
        · simp at h
        case h_2 gate hGate =>
          split at h
          · -- INPUT gate
            split at h
            · simp at h
            · exact memoStep_ne_fuelOut h
          · -- non-INPUT gate
            split at h
            · simp at h
            case h_2 p1 hp1 =>
              split at h
              · simp at h
              case h_2 heq1 =>
                exact evalGate_no_fuelOut circ inputs fuel p1 _ hcount1' heq1
              case h_3 success1 result1 st2 heq1 =>
                have e1 := evalGate_out_evolves circ inputs fuel p1 _ _ _ _ heq1
                have hcount2 : st2.visited.count false < fuel :=
                  lt_of_le_of_lt (evolves_count_false_le e1) hcount1'
                split at h
                · split at h
                  · simp at h
                  case h_2 p2 hp2 =>
                    split at h
                    · simp at h
                    case h_2 heq2 =>
                      exact evalGate_no_fuelOut circ inputs fuel p2 _ hcount2 heq2
                    case h_3 success2 result2 st3 heq2 =>
                      split at h
                      · simp at h
                      · exact memoStep_ne_fuelOut h
                · split at h
                  · simp at h
                  · exact memoStep_ne_fuelOut h

/-- A successful `evaluateGate` call leaves its gate memoized. -/
theorem evalGate_success_done (circ : Circuit) (inputs : List Bool)
    {fuel gateID : Nat} {st : EvalSt} {r : Bool} {st' : EvalSt}
    (h : evaluateGate circ inputs fuel gateID st = .out true r st') :
    st'.calculated[gateID]? = some true := by
  cases fuel with
  | zero => simp [evaluateGate] at h
  | succ fuel =>
    simp only [evaluateGate] at h
    split at h
    case h_2 => simp at h
    case h_1 v cal hv hc =>
      split at h
      · simp at h
      split at h
      · rename_i hcal
        split at h
        · obtain ⟨-, -, rfl⟩ := GRes.out.inj h
          rw [hc, hcal]
        · simp at h
      · split at h
        · simp at h
        case h_2 gate hGate =>
          split at h
          · split at h
            · simp at h
            · exact memoStep_out_true h
          · split at h
            · simp at h
            case h_2 p1 hp1 =>
              split at h
              · simp at h
              · simp at h
              case h_3 success1 result1 st2 heq1 =>
                split at h
                · split at h
                  · simp at h
                  case h_2 p2 hp2 =>
                    split at h
                    · simp at h
                    · simp at h
                    case h_3 success2 result2 st3 heq2 =>
                      split at h
                      · simp at h
                      · exact memoStep_out_true h
                · split at h
                  · simp at h
                  · exact memoStep_out_true h

/-! ### Invariant preservation: memoized gates are predecessor-closed and
never on a cycle -/

theorem max_input_wires_le_two (k : GateType_t) : max_input_wires k ≤ 2 := by
  cases k <;> decide

theorem valid_gate_arity {circ : Circuit} {g : Nat} {gate : Gate}
    (h : validCircuit circ = true) (hg : circ.Gates[g]? = some gate) :
    min_input_wires gate.GateType ≤ gate.InFrom.length ∧
      gate.InFrom.length ≤ max_input_wires gate.GateType := by
  unfold validCircuit at h
  split at h
  · exact absurd h (by simp)
  · have hmem := List.getElem?_mem hg
    have hok := List.all_eq_true.mp h gate hmem
    simp only [gateArityOK, Bool.not_eq_true', Bool.or_eq_false_iff,
      decide_eq_false_iff_not, not_lt] at hok
    exact hok

theorem list_eq_pair {l : List Nat} {p1 p2 : Nat} (hlen : l.length = 2)
    (h0 : l[0]? = some p1) (h1 : l[1]? = some p2) : l = [p1, p2] := by
  cases l with
  | nil => simp at hlen
  | cons a t =>
    cases t with
    | nil => simp at hlen
    | cons b t2 =>
      cases t2 with
      | nil =>
        simp only [List.getElem?_cons_zero, Option.some.injEq] at h0
        simp only [List.getElem?_cons_succ, List.getElem?_cons_zero, Option.some.injEq] at h1
        rw [h0, h1]
      | cons c t3 => simp at hlen

theorem list_eq_single {l : List Nat} {p1 : Nat} (hlen : l.length = 1)
    (h0 : l[0]? = some p1) : l = [p1] := by
  cases l with
  | nil => simp at hlen
  | cons a t =>
    cases t with
    | nil =>
      simp only [List.getElem?_cons_zero, Option.some.injEq] at h0
      rw [h0]
    | cons b t2 => simp at hlen

/-- In a dispatch that succeeds on a gate of valid arity with at least one
predecessor, the first recursion succeeded, and so did the second when the
fan-in is 2. -/
theorem dispatchGate_success_implies {inputs : List Bool} {gate : Gate} {gateID : Nat}
    {s1 r1 s2 r2 r : Bool}
    (harity : min_input_wires gate.GateType ≤ gate.InFrom.length ∧
      gate.InFrom.length ≤ max_input_wires gate.GateType)
    (hlen : 1 ≤ gate.InFrom.length)
    (hd : dispatchGate inputs gate gateID s1 r1 s2 r2 = some (true, r)) :
    s1 = true ∧ (gate.InFrom.length = 2 → s2 = true) := by
  unfold dispatchGate at hd
  split at hd
  case h_1 heq =>
    -- INPUT: arity forces an empty predecessor list
    rw [heq] at harity
    simp only [min_input_wires, max_input_wires] at harity
    omega
  case h_2 heq =>
    rw [heq] at harity
    simp only [min_input_wires, max_input_wires] at harity
    split at hd
    · obtain ⟨hs, -⟩ := Prod.mk.inj (Option.some.inj hd)
      exact ⟨hs, fun h2 => by omega⟩
    · simp at hd
  case h_3 heq =>
    rw [heq] at harity
    simp only [min_input_wires, max_input_wires] at harity
    split at hd
    · obtain ⟨hs, -⟩ := Prod.mk.inj (Option.some.inj hd)
      exact ⟨hs, fun h2 => by omega⟩
    · simp at hd
  case h_4 heq =>
    split at hd
    · split at hd
      · rename_i hss
        simp only [Bool.and_eq_true] at hss
        exact ⟨hss.1, fun _ => hss.2⟩
      · simp at hd
    · rw [heq] at harity
      simp only [min_input_wires, max_input_wires] at harity
      omega
  case h_5 heq =>
    split at hd
    · split at hd
      · rename_i hss
        simp only [Bool.and_eq_true] at hss
        exact ⟨hss.1, fun _ => hss.2⟩
      · simp at hd
    · rw [heq] at harity
      simp only [min_input_wires, max_input_wires] at harity
      omega
  case h_6 heq =>
    rw [heq] at harity
    simp only [min_input_wires, max_input_wires] at harity
    omega
  case h_7 heq =>
    split at hd
    · split at hd
      · rename_i hss
        simp only [Bool.and_eq_true] at hss
        exact ⟨hss.1, fun _ => hss.2⟩
      · simp at hd
    · rw [heq] at harity
      simp only [min_input_wires, max_input_wires] at harity
      omega
  case h_8 heq =>
    rw [heq] at harity
    simp only [min_input_wires, max_input_wires] at harity
    split at hd
    · split at hd
      · rename_i hs1
        exact ⟨hs1, fun h2 => by omega⟩
      · simp at hd
    · omega

theorem doneClosed_reach {circ : Circuit} {st : EvalSt} (hD : DoneClosed circ st)
    {x y : Nat} (h : Relation.ReflTransGen (stepT circ) x y)
    (hx : st.calculated[x]? = some true) : st.calculated[y]? = some true := by
  induction h with
  | refl => exact hx
  | tail _hpre hstep ih =>
    obtain ⟨gate, hg, -, hmem⟩ := hstep
    exact hD _ _ ih hg _ hmem

theorem transGen_cycle_head {r : Nat → Nat → Prop} {a : Nat}
    (h : Relation.TransGen r a a) : ∃ b, r a b ∧ Relation.ReflTransGen r b a :=
  Relation.TransGen.head'_iff.mp h

theorem memoStep_out_cases {gateID : Nat} {success result s r : Bool} {st st' : EvalSt}
    (h : memoStep gateID success result st = .out s r st') :
    (success = false ∧ s = false ∧ st' = st) ∨
      (success = true ∧ s = true ∧ r = result ∧
        st' = { st with calculated := st.calculated.set gateID true,
                        values := st.values.set gateID result }) := by
  unfold memoStep at h
  split at h
  case isTrue hs =>
    split at h
    · obtain ⟨h1, h2, h3⟩ := GRes.out.inj h
      exact Or.inr ⟨hs, h1.symm, h2.symm, h3.symm⟩
    · simp at h
  case isFalse hs =>
    obtain ⟨h1, h2, h3⟩ := GRes.out.inj h
    exact Or.inl ⟨Bool.not_eq_true _ ▸ hs, h1.symm, h3.symm⟩

/-- Valid circuits preserve the two memoization invariants through every
`evaluateGate` call that returns: the memoized set stays predecessor-closed
and never contains a gate that lies on a reference cycle. -/
theorem evalGate_preserves_inv (circ : Circuit) (inputs : List Bool)
    (hvalid : validCircuit circ = true) :
    ∀ (fuel gateID : Nat) (st : EvalSt) (s r : Bool) (st' : EvalSt),
      evaluateGate circ inputs fuel gateID st = .out s r st' →
      DoneClosed circ st → CycFree circ st → DoneClosed circ st' ∧ CycFree circ st'
  | 0, gateID, st, s, r, st' => by
    intro h _ _
    simp [evaluateGate] at h
  | fuel + 1, gateID, st, s, r, st' => by
    intro h hD hC
    simp only [evaluateGate] at h
    split at h
    case h_2 => simp at h
    case h_1 v cal hv hc =>
      split at h
      · obtain ⟨-, -, rfl⟩ := GRes.out.inj h
        exact ⟨hD, hC⟩
      rename_i hnotcycle
      split at h
      · split at h
        · obtain ⟨-, -, rfl⟩ := GRes.out.inj h
          exact ⟨hD, hC⟩
        · simp at h
      · rename_i hnotcal
        have hcalf : cal = false := by
          cases cal
          · rfl
          · exact absurd rfl hnotcal
        have hvf : v = false := by
          subst hcalf
          cases v
          · rfl
          · simp at hnotcycle
        have hstuckc1 : st.calculated[gateID]? = some false := by
          rw [hc, hcalf]
        split at h
        · simp at h
        case h_2 gate hGate =>
          have harity := valid_gate_arity hvalid hGate
          have finishMemo : ∀ (stL : EvalSt) (resv : Bool),
              DoneClosed circ stL → CycFree circ stL →
              (∀ p ∈ gate.InFrom, stL.calculated[p]? = some true) →
              stL.calculated[gateID]? = some false →
              DoneClosed circ { stL with calculated := stL.calculated.set gateID true,
                                         values := stL.values.set gateID resv } ∧
              CycFree circ { stL with calculated := stL.calculated.set gateID true,
                                      values := stL.values.set gateID resv } := by
            intro stL resv hDL hCL hpreds hstuck
            constructor
            · intro g' gate' hg' hGg' p hp
              rcases eq_or_ne gateID g' with rfl | hne
              · rw [hGate] at hGg'
                obtain rfl := Option.some.inj hGg'
                exact getElem?_set_keeps_some_true (hpreds p hp)
              · rw [List.getElem?_set_ne hne] at hg'
                exact getElem?_set_keeps_some_true (hDL g' gate' hg' hGg' p hp)
            · intro x hx hmem
              rcases eq_or_ne gateID x with rfl | hne
              · obtain ⟨p, hstep, hrtg⟩ := transGen_cycle_head hx
                obtain ⟨gate'', hg'', -, hpmem⟩ := hstep
                rw [hGate] at hg''
                obtain rfl := Option.some.inj hg''
                have hdone := doneClosed_reach hDL hrtg (hpreds p hpmem)
                rw [hstuck] at hdone
                exact Bool.noConfusion (Option.some.inj hdone)
              · rw [List.getElem?_set_ne hne] at hmem
                exact hCL x hx hmem
          split at h
          case isTrue hInp =>
            -- INPUT gate: no recursion, arity forces an empty predecessor list
            have hInFrom : gate.InFrom = [] := by
              rw [hInp] at harity
              simp only [min_input_wires, max_input_wires] at harity
              exact List.length_eq_zero.mp (by omega)
            split at h
            · simp at h
            case h_2 success result hdisp =>
              rcases memoStep_out_cases h with ⟨-, -, rfl⟩ | ⟨hsucc, -, -, rfl⟩
              · exact ⟨hD, hC⟩
              · refine finishMemo _ _ hD hC ?_ hstuckc1
                intro p hp
                rw [hInFrom] at hp
                simp at hp
          case isFalse hInp =>
            split at h
            · simp at h
            case h_2 p1 hp1 =>
              obtain ⟨h0len, -⟩ := List.getElem?_eq_some.mp hp1
              have hlen1 : 1 ≤ gate.InFrom.length := h0len
              have hgid_lt : gateID < st.visited.length := (List.getElem?_eq_some.mp hv).1
              have hstuckv1 : (st.visited.set gateID true)[gateID]? = some true :=
                List.getElem?_set_self hgid_lt
              split at h
              · simp at h
              · simp at h
              case h_3 success1 result1 st2 heq1 =>
                have hDC1 := evalGate_preserves_inv circ inputs hvalid fuel p1 _ _ _ _ heq1 hD hC
                have e1 := evalGate_out_evolves circ inputs fuel p1 _ _ _ _ heq1
                obtain ⟨hstuckc2, hstuckv2⟩ :=
                  evalGate_keeps_stuck circ inputs fuel p1 _ _ _ _ gateID heq1 hstuckv1 hstuckc1
                split at h
                case isTrue hlen2 =>
                  split at h
                  · simp at h
                  case h_2 p2 hp2 =>
                    split at h
                    · simp at h
                    · simp at h
                    case h_3 success2 result2 st3 heq2 =>
                      have hDC2 := evalGate_preserves_inv circ inputs hvalid fuel p2 _ _ _ _
                        heq2 hDC1.1 hDC1.2
                      have e2 := evalGate_out_evolves circ inputs fuel p2 _ _ _ _ heq2
                      obtain ⟨hstuckc3, hstuckv3⟩ :=
                        evalGate_keeps_stuck circ inputs fuel p2 _ _ _ _ gateID heq2
                          hstuckv2 hstuckc2
                      split at h
                      · simp at h
                      case h_2 success result hdisp =>
                        rcases memoStep_out_cases h with ⟨-, -, rfl⟩ | ⟨hsucc, -, -, rfl⟩
                        · exact hDC2
                        · subst hsucc
                          obtain ⟨hs1, hs2f⟩ := dispatchGate_success_implies harity hlen1 hdisp
                          have hs2 := hs2f hlen2
                          subst hs1
                          subst hs2
                          have hInFrom : gate.InFrom = [p1, p2] := list_eq_pair hlen2 hp1 hp2
                          have hp1done : st3.calculated[p1]? = some true :=
                            e2.2.2.2.2 _ (evalGate_success_done circ inputs heq1)
                          have hp2done : st3.calculated[p2]? = some true :=
                            evalGate_success_done circ inputs heq2
                          refine finishMemo _ _ hDC2.1 hDC2.2 ?_ hstuckc3
                          intro p hp
                          rw [hInFrom] at hp
                          simp only [List.mem_cons, List.not_mem_nil, or_false] at hp
                          rcases hp with rfl | rfl
                          · exact hp1done
                          · exact hp2done
                case isFalse hlen2 =>
                  split at h
                  · simp at h
                  case h_2 success result hdisp =>
                    rcases memoStep_out_cases h with ⟨-, -, rfl⟩ | ⟨hsucc, -, -, rfl⟩
                    · exact hDC1
                    · subst hsucc
                      obtain ⟨hs1, -⟩ := dispatchGate_success_implies harity hlen1 hdisp
                      subst hs1
                      have hlenEq1 : gate.InFrom.length = 1 := by
                        have := max_input_wires_le_two gate.GateType
                        omega
                      have hInFrom : gate.InFrom = [p1] := list_eq_single hlenEq1 hp1
                      have hp1done : st2.calculated[p1]? = some true :=
                        evalGate_success_done circ inputs heq1
                      refine finishMemo _ _ hDC1.1 hDC1.2 ?_ hstuckc2
                      intro p hp
                      rw [hInFrom] at hp
                      simp only [List.mem_cons, List.not_mem_nil, or_false] at hp
                      rcases hp with rfl
                      exact hp1done

theorem evalLoop_no_fuelOut (circ : Circuit) (inputBits : List Bool) :
    ∀ (remaining i : Nat) (st : EvalSt) (acc : List Bool),
      evalLoop circ inputBits i remaining st acc ≠ .fuelOut
  | 0, i, st, acc => by simp [evalLoop]
  | remaining + 1, i, st, acc => by
    intro h
    simp only [evalLoop] at h
    split at h
    · simp at h
    case h_2 heq =>
      refine evalGate_no_fuelOut circ inputBits (circ.Gates.length + 1)
        (getOutputGate circ i) _ ?_ heq
      show (List.replicate circ.Gates.length false).count false < circ.Gates.length + 1
      rw [List.count_replicate]
      simp
    case h_3 success resultBit st2 heq =>
      split at h
      · exact evalLoop_no_fuelOut circ inputBits remaining (i + 1) st2 _ h
      · simp at h

theorem evalLoop_cycle_no_ok (circ : Circuit) (inputBits : List Bool)
    (hvalid : validCircuit circ = true) :
    ∀ (remaining i : Nat) (st : EvalSt) (acc : List Bool),
      DoneClosed circ st → CycFree circ st →
      (∃ o, i ≤ o ∧ o < i + remaining ∧ ∃ a,
        Relation.ReflTransGen (stepT circ) (getOutputGate circ o) a ∧
          Relation.TransGen (stepT circ) a a) →
      ∀ bits, evalLoop circ inputBits i remaining st acc ≠ .ok bits
  | 0, i, st, acc => by
    intro _ _ hex bits h
    obtain ⟨o, h1, h2, -⟩ := hex
    omega
  | remaining + 1, i, st, acc => by
    intro hD hC hex bits h
    obtain ⟨o, ho1, ho2, a, hreach, hcyc⟩ := hex
    simp only [evalLoop] at h
    split at h
    · simp at h
    · simp at h
    case h_3 success resultBit st2 heq =>
      split at h
      case isTrue hsucc =>
        subst hsucc
        have hinv2 := evalGate_preserves_inv circ inputBits hvalid _ _ _ _ _ _ heq hD hC
        rcases eq_or_ne o i with rfl | hne
        · have hdone : st2.calculated[getOutputGate circ o]? = some true :=
            evalGate_success_done circ inputBits heq
          have hdonea := doneClosed_reach hinv2.1 hreach hdone
          exact hinv2.2 a hcyc hdonea
        · exact evalLoop_cycle_no_ok circ inputBits hvalid remaining (i + 1) st2 _
            hinv2.1 hinv2.2 ⟨o, by omega, by omega, a, hreach, hcyc⟩ bits h
      · simp at h

/-- C2 (amended): evaluation always terminates (the fuel the evaluator
supplies can never run out), and on every valid circuit that contains a
reference cycle among non-INPUT gates reachable from some output wire,
`evaluate` never returns a result vector, whatever input vector of length
`NumInputWires` is supplied. -/
theorem C2_reachable_cycle_never_ok (circ : Circuit) (inputBits : List Bool) :
    EvaluateCircuit circ inputBits ≠ .fuelOut ∧
    (validCircuit circ = true → inputBits.length = circ.NumInputWires →
      reachableCycle circ → ∀ bits, EvaluateCircuit circ inputBits ≠ .ok bits) := by
  constructor
  · unfold EvaluateCircuit
    split
    · simp
    · exact evalLoop_no_fuelOut circ inputBits _ _ _ _
  · intro hvalid hlen hrc bits
    obtain ⟨o, ho, a, hreach, hcyc⟩ := hrc
    unfold EvaluateCircuit
    split
    · simp
    · have hinit : ∀ g : Nat, (List.replicate circ.Gates.length false)[g]? ≠ some true := by
        intro g hmem
        rw [List.getElem?_replicate] at hmem
        split at hmem
        · exact Bool.noConfusion (Option.some.inj hmem)
        · exact Option.noConfusion hmem
      refine evalLoop_cycle_no_ok circ inputBits hvalid circ.NumOutputWires 0 _ []
        ?_ ?_ ⟨o, Nat.zero_le o, by omega, a, hreach, hcyc⟩ bits
      · intro g gate hg _ _ _
        exact absurd hg (hinit g)
      · intro x _ hmem
        exact hinit x hmem

/-- C2 witness: `loopedOutputCircuit` is valid and its output wire reaches a
self-looping COPY gate; the amended theorem applies, and indeed evaluation
fails rather than producing `[false]`. -/
theorem C2_reachable_cycle_never_ok_witness :
    validCircuit loopedOutputCircuit = true ∧
    EvaluateCircuit loopedOutputCircuit [false] ≠ .ok [false] := by
  have hrc : reachableCycle loopedOutputCircuit :=
    ⟨0, by decide, 2,
      Relation.ReflTransGen.single
        ⟨⟨GateOUTPUT, false, [2]⟩, by decide, by decide, by decide⟩,
      Relation.TransGen.single
        ⟨⟨GateCOPY, false, [2]⟩, by decide, by decide, by decide⟩⟩
  exact ⟨by decide,
    (C2_reachable_cycle_never_ok loopedOutputCircuit [false]).2 (by decide) (by decide)
      hrc [false]⟩

/-! ### Packing lemmas -/

theorem getElem?_eq_some_getD {α : Type} {l : List α} {n : Nat} {d : α} (h : n < l.length) :
    l[n]? = some (l.getD n d) := by
  rw [List.getD_eq_getElem?_getD]
  cases heq : l[n]? with
  | none =>
    have := List.getElem?_eq_none_iff.mp heq
    omega
  | some w => rfl

theorem sum_range_getD_le : ∀ (l : List Nat) (k : Nat), k ≤ l.length →
    (∑ t ∈ Finset.range k, l.getD t 0) ≤ l.sum
  | _, 0, _ => by simp
  | [], k + 1, h => by simp at h
  | a :: t, k + 1, h => by
    rw [Finset.sum_range_succ']
    simp only [List.getD_cons_succ, List.getD_cons_zero, List.sum_cons]
    have := sum_range_getD_le t k (by simpa using h)
    omega

/-- Characterization of the inner packing loop: it writes
`bufBit buf j, bufBit buf (j+1), ...` into `result[loc], result[loc+1], ...`
and advances `loc` by the wire count. -/
theorem padWires_ok : ∀ (buf : List Nat) (rem j loc : Nat) (result : List Bool),
    loc + rem ≤ result.length →
    ∃ result', padWires buf rem j loc result = some (loc + rem, result') ∧
      result'.length = result.length ∧
      (∀ k : Nat, k < loc → result'[k]? = result[k]?) ∧
      (∀ d : Nat, d < rem → result'[loc + d]? = some (bufBit buf (j + d))) ∧
      (∀ k : Nat, loc + rem ≤ k → result'[k]? = result[k]?)
  | buf, 0, j, loc, result => fun _ =>
    ⟨result, by simp [padWires], rfl, fun _ _ => rfl,
      fun d hd => absurd hd (by omega), fun _ _ => rfl⟩
  | buf, rem + 1, j, loc, result => fun hle => by
    have hlt : loc < result.length := by omega
    have hle' : (loc + 1) + rem ≤ (result.set loc (bufBit buf j)).length := by
      rw [List.length_set]
      omega
    obtain ⟨result', heq, hlen, hbefore, hseg, hafter⟩ :=
      padWires_ok buf rem (j + 1) (loc + 1) (result.set loc (bufBit buf j)) hle'
    refine ⟨result', ?_, by rw [hlen, List.length_set], ?_, ?_, ?_⟩
    · simp only [padWires]
      rw [if_pos hlt, heq]
      have : loc + 1 + rem = loc + (rem + 1) := by omega
      rw [this]
    · intro k hk
      rw [hbefore k (by omega), List.getElem?_set_ne (by omega)]
    · intro d hd
      cases d with
      | zero =>
        rw [Nat.add_zero, Nat.add_zero, hbefore loc (Nat.lt_succ_self loc),
          List.getElem?_set_self hlt]
      | succ d' =>
        have h1 : loc + (d' + 1) = (loc + 1) + d' := by omega
        have h2 : j + (d' + 1) = (j + 1) + d' := by omega
        rw [h1, h2, hseg d' (by omega)]
    · intro k hk
      rw [hafter k (by omega), List.getElem?_set_ne (by omega)]

/-- Characterization of the outer packing loop on buffers that all fit their
variables' wire counts: each variable's wires are filled contiguously, in
variable order. -/
theorem padVars_ok (circ : Circuit) : ∀ (bufs : List (List Nat)) (i loc : Nat)
    (result : List Bool),
    i + bufs.length ≤ circ.NumWiresIV.length →
    (∀ k : Nat, k < bufs.length →
      (bufs.getD k []).length * 8 ≤ circ.NumWiresIV.getD (i + k) 0) →
    loc + (∑ t ∈ Finset.range bufs.length, circ.NumWiresIV.getD (i + t) 0) ≤
      result.length →
    ∃ result',
      padVars circ bufs i loc result = .ok result' ∧
      result'.length = result.length ∧
      (∀ k : Nat, k < loc → result'[k]? = result[k]?) ∧
      (∀ v d : Nat, v < bufs.length → d < circ.NumWiresIV.getD (i + v) 0 →
        result'[loc + (∑ t ∈ Finset.range v, circ.NumWiresIV.getD (i + t) 0) + d]? =
          some (bufBit (bufs.getD v []) d)) ∧
      (∀ k : Nat,
        loc + (∑ t ∈ Finset.range bufs.length, circ.NumWiresIV.getD (i + t) 0) ≤ k →
        result'[k]? = result[k]?)
  | [], i, loc, result => fun _ _ _ =>
    ⟨result, by simp [padVars], rfl, fun _ _ => rfl,
      fun v d hv => absurd hv (by simp), fun _ _ => rfl⟩
  | buf :: rest, i, loc, result => fun hlen hfits hcap => by
    have hsum : (∑ t ∈ Finset.range (buf :: rest).length, circ.NumWiresIV.getD (i + t) 0) =
        (∑ t ∈ Finset.range rest.length, circ.NumWiresIV.getD (i + 1 + t) 0) +
          circ.NumWiresIV.getD i 0 := by
      rw [List.length_cons, Finset.sum_range_succ']
      congr 1
      refine Finset.sum_congr rfl fun t _ => ?_
      congr 1
      omega
    have hiw : circ.NumWiresIV[i]? = some (circ.NumWiresIV.getD i 0) := by
      refine getElem?_eq_some_getD ?_
      simp only [List.length_cons] at hlen
      omega
    have hfit0 : buf.length * 8 ≤ circ.NumWiresIV.getD i 0 := by
      have h0 := hfits 0 (by simp)
      simp only [List.getD_cons_zero, Nat.add_zero] at h0
      exact h0
    have hcapw : loc + circ.NumWiresIV.getD i 0 ≤ result.length := by
      rw [hsum] at hcap
      omega
    obtain ⟨result1, heqW, hlen1, hbefore1, hseg1, hafter1⟩ :=
      padWires_ok buf (circ.NumWiresIV.getD i 0) 0 loc result hcapw
    have hlen' : (i + 1) + rest.length ≤ circ.NumWiresIV.length := by
      simp only [List.length_cons] at hlen
      omega
    have hfits' : ∀ k : Nat, k < rest.length →
        (rest.getD k []).length * 8 ≤ circ.NumWiresIV.getD ((i + 1) + k) 0 := by
      intro k hk
      have hk1 := hfits (k + 1) (by simp only [List.length_cons]; omega)
      simp only [List.getD_cons_succ] at hk1
      have harg : i + (k + 1) = (i + 1) + k := by omega
      rw [harg] at hk1
      exact hk1
    have hcap' : (loc + circ.NumWiresIV.getD i 0) +
        (∑ t ∈ Finset.range rest.length, circ.NumWiresIV.getD ((i + 1) + t) 0) ≤
        result1.length := by
      rw [hlen1]
      rw [hsum] at hcap
      omega
    obtain ⟨result', heqV, hlen2, hbefore2, hseg2, hafter2⟩ :=
      padVars_ok circ rest (i + 1) (loc + circ.NumWiresIV.getD i 0) result1
        hlen' hfits' hcap'
    refine ⟨result', ?_, by rw [hlen2, hlen1], ?_, ?_, ?_⟩
    · simp only [padVars]
      split
      case h_1 heqn =>
        rw [hiw] at heqn
        exact Option.noConfusion heqn
      case h_2 w' heqs =>
        rw [hiw] at heqs
        obtain rfl := Option.some.inj heqs
        rw [if_neg (by omega)]
        split
        case h_1 heqn =>
          rw [heqW] at heqn
          exact Option.noConfusion heqn
        case h_2 loc2 result2 heqs2 =>
          rw [heqW] at heqs2
          obtain ⟨rfl, rfl⟩ := Prod.mk.inj (Option.some.inj heqs2)
          exact heqV
    · intro k hk
      rw [hbefore2 k (by omega), hbefore1 k hk]
    · intro v d hv hd
      cases v with
      | zero =>
        simp only [Finset.range_zero, Finset.sum_empty, Nat.add_zero, List.getD_cons_zero]
        have hd' : d < circ.NumWiresIV.getD i 0 := by
          rw [Nat.add_zero] at hd
          exact hd
        rw [hbefore2 (loc + d) (by omega), hseg1 d hd', Nat.zero_add]
      | succ v' =>
        have hv' : v' < rest.length := by
          simp only [List.length_cons] at hv
          omega
        have hd' : d < circ.NumWiresIV.getD ((i + 1) + v') 0 := by
          have harg : i + (v' + 1) = (i + 1) + v' := by omega
          rw [harg] at hd
          exact hd
        have hpos : loc + (∑ t ∈ Finset.range (v' + 1), circ.NumWiresIV.getD (i + t) 0) + d =
            (loc + circ.NumWiresIV.getD i 0) +
              (∑ t ∈ Finset.range v', circ.NumWiresIV.getD ((i + 1) + t) 0) + d := by
          rw [Finset.sum_range_succ']
          have hshift : (∑ t ∈ Finset.range v', circ.NumWiresIV.getD (i + (t + 1)) 0) =
              (∑ t ∈ Finset.range v', circ.NumWiresIV.getD ((i + 1) + t) 0) := by
            refine Finset.sum_congr rfl fun t _ => ?_
            congr 1
            omega
          rw [hshift]
          simp only [Nat.add_zero]
          omega
        rw [hpos, hseg2 v' d hv' hd']
        simp only [List.getD_cons_succ]
    · intro k hk
      rw [hsum] at hk
      rw [hafter2 k (by omega), hafter1 k (by omega)]

/-- The outer packing loop fails with `nil` when some buffer is too big for
its variable, provided the earlier buffers stay in bounds. -/
theorem padVars_nil (circ : Circuit) : ∀ (bufs : List (List Nat)) (i loc : Nat)
    (result : List Bool),
    i + bufs.length ≤ circ.NumWiresIV.length →
    loc + (∑ t ∈ Finset.range bufs.length, circ.NumWiresIV.getD (i + t) 0) ≤
      result.length →
    (∃ k, k < bufs.length ∧ circ.NumWiresIV.getD (i + k) 0 < (bufs.getD k []).length * 8) →
    padVars circ bufs i loc result = .failNil
  | [], i, loc, result => fun _ _ hbad => by
    obtain ⟨k, hk, -⟩ := hbad
    simp at hk
  | buf :: rest, i, loc, result => fun hlen hcap hbad => by
    have hsum : (∑ t ∈ Finset.range (buf :: rest).length, circ.NumWiresIV.getD (i + t) 0) =
        (∑ t ∈ Finset.range rest.length, circ.NumWiresIV.getD (i + 1 + t) 0) +
          circ.NumWiresIV.getD i 0 := by
      rw [List.length_cons, Finset.sum_range_succ']
      congr 1
      refine Finset.sum_congr rfl fun t _ => ?_
      congr 1
      omega
    have hiw : circ.NumWiresIV[i]? = some (circ.NumWiresIV.getD i 0) := by
      refine getElem?_eq_some_getD ?_
      simp only [List.length_cons] at hlen
      omega
    simp only [padVars]
    split
    case h_1 heqn =>
      rw [hiw] at heqn
      exact Option.noConfusion heqn
    case h_2 w' heqs =>
      rw [hiw] at heqs
      obtain rfl := Option.some.inj heqs
      by_cases hfit0 : circ.NumWiresIV.getD i 0 < buf.length * 8
      · rw [if_pos hfit0]
      · rw [if_neg hfit0]
        have hcapw : loc + circ.NumWiresIV.getD i 0 ≤ result.length := by
          rw [hsum] at hcap
          omega
        obtain ⟨result1, heqW, hlen1, -, -, -⟩ :=
          padWires_ok buf (circ.NumWiresIV.getD i 0) 0 loc result hcapw
        split
        · rename_i heqn
          rw [heqW] at heqn
          exact Option.noConfusion heqn
        · rename_i loc2 result2 heqs2
          rw [heqW] at heqs2
          obtain ⟨rfl, rfl⟩ := Prod.mk.inj (Option.some.inj heqs2)
          have hlen' : (i + 1) + rest.length ≤ circ.NumWiresIV.length := by
            simp only [List.length_cons] at hlen
            omega
          have hcap' : (loc + circ.NumWiresIV.getD i 0) +
              (∑ t ∈ Finset.range rest.length, circ.NumWiresIV.getD ((i + 1) + t) 0) ≤
              result1.length := by
            rw [hlen1]
            rw [hsum] at hcap
            omega
          refine padVars_nil circ rest (i + 1) (loc + circ.NumWiresIV.getD i 0) result1
            hlen' hcap' ?_
          obtain ⟨k, hk, hbig⟩ := hbad
          cases k with
          | zero =>
            simp only [Nat.add_zero, List.getD_cons_zero] at hbig
            exact absurd hbig hfit0
          | succ k' =>
            refine ⟨k', by simpa using hk, ?_⟩
            have harg : i + (k' + 1) = (i + 1) + k' := by omega
            rw [harg] at hbig
            simp only [List.getD_cons_succ] at hbig
            exact hbig

theorem and_shift_ne_zero (x k : Nat) : (x &&& (1 <<< k) != 0) = x.testBit k := by
  rw [Nat.one_shiftLeft, Nat.and_two_pow]
  cases h : x.testBit k
  · simp
  · simp only [Bool.toNat_true, Nat.one_mul]
    have hpos := Nat.two_pow_pos k
    simp only [bne_iff_ne, ne_eq]
    omega

/-- `bufBit` is exactly the bit-extraction convention of the claim: bit
`j % 8` of byte `length - 1 - j/8`, `false` past the end of the buffer. -/
theorem bufBit_eq_testBit (buf : List Nat) (j : Nat) :
    bufBit buf j = if j / 8 < buf.length then
      (buf.getD (buf.length - 1 - j / 8) 0).testBit (j % 8) else false := by
  unfold bufBit
  split
  · have harg : buf.length - j / 8 - 1 = buf.length - 1 - j / 8 := by omega
    rw [harg, and_shift_ne_zero]
  · rfl

/-- C4: the packing layer.  (a) the concrete 0x05 example; (b) more buffers
than input variables fail with no result; (c) under the data-model invariants
on the input-variable partition, a buffer whose bit-length exceeds its
variable's wire count fails with no result; (d) on success the result has one
bit per input wire, wire offset `j` of variable `v` (at the contiguous offset
given by the preceding variables' wire counts) holds bit `j % 8` of byte
`length - 1 - j/8` of that variable's buffer (`false` past its end), and
wires after the supplied variables stay `false`. -/
theorem C4_pack_inputs_formula :
    (∀ buf j, bufBit buf j = if j / 8 < buf.length then
      (buf.getD (buf.length - 1 - j / 8) 0).testBit (j % 8) else false) ∧
    (PadInputsToBoolArray byteVarCircuit [[5]] =
      .ok [true, false, true, false, false, false, false, false]) ∧
    (∀ (circ : Circuit) (bufs : List (List Nat)),
      circ.NumInputVars < bufs.length → PadInputsToBoolArray circ bufs = .failNil) ∧
    (∀ (circ : Circuit) (bufs : List (List Nat)),
      circ.NumWiresIV.length = circ.NumInputVars →
      circ.NumWiresIV.sum ≤ circ.NumInputWires →
      (∃ k, k < bufs.length ∧ circ.NumWiresIV.getD k 0 < 8 * (bufs.getD k []).length) →
      PadInputsToBoolArray circ bufs = .failNil) ∧
    (∀ (circ : Circuit) (bufs : List (List Nat)),
      circ.NumWiresIV.length = circ.NumInputVars →
      circ.NumWiresIV.sum ≤ circ.NumInputWires →
      bufs.length ≤ circ.NumInputVars →
      (∀ k : Nat, k < bufs.length →
        8 * (bufs.getD k []).length ≤ circ.NumWiresIV.getD k 0) →
      ∃ l, PadInputsToBoolArray circ bufs = .ok l ∧
        l.length = circ.NumInputWires ∧
        (∀ v j : Nat, v < bufs.length → j < circ.NumWiresIV.getD v 0 →
          l.getD ((∑ t ∈ Finset.range v, circ.NumWiresIV.getD t 0) + j) false =
            bufBit (bufs.getD v []) j) ∧
        (∀ k : Nat, (∑ t ∈ Finset.range bufs.length, circ.NumWiresIV.getD t 0) ≤ k →
          k < circ.NumInputWires → l.getD k false = false)) := by
  refine ⟨bufBit_eq_testBit, by decide, ?_, ?_, ?_⟩
  · intro circ bufs h
    unfold PadInputsToBoolArray
    rw [if_pos h]
  · intro circ bufs hpart hsum hbad
    unfold PadInputsToBoolArray
    split
    · rfl
    · rename_i hguard
      have hble : bufs.length ≤ circ.NumWiresIV.length := by omega
      refine padVars_nil circ bufs 0 0 (List.replicate circ.NumInputWires false)
        (by omega) ?_ ?_
      · simp only [Nat.zero_add, List.length_replicate]
        exact le_trans (sum_range_getD_le circ.NumWiresIV bufs.length hble) hsum
      · obtain ⟨k, hk, hbig⟩ := hbad
        refine ⟨k, hk, ?_⟩
        rw [Nat.zero_add]
        omega
  · intro circ bufs hpart hsum hble hfits
    unfold PadInputsToBoolArray
    rw [if_neg (by omega)]
    have hble' : bufs.length ≤ circ.NumWiresIV.length := by omega
    have hshift0 : ∀ m : Nat,
        (∑ t ∈ Finset.range m, circ.NumWiresIV.getD (0 + t) 0) =
        (∑ t ∈ Finset.range m, circ.NumWiresIV.getD t 0) := by
      intro m
      refine Finset.sum_congr rfl fun t _ => ?_
      rw [Nat.zero_add]
    obtain ⟨l, heq, hlen, -, hseg, hafter⟩ :=
      padVars_ok circ bufs 0 0 (List.replicate circ.NumInputWires false)
        (by omega)
        (fun k hk => by
          have := hfits k hk
          rw [Nat.zero_add]
          omega)
        (by
          rw [Nat.zero_add, hshift0, List.length_replicate]
          exact le_trans (sum_range_getD_le circ.NumWiresIV bufs.length hble') hsum)
    refine ⟨l, heq, by rw [hlen, List.length_replicate], ?_, ?_⟩
    · intro v j hv hj
      have hj' : j < circ.NumWiresIV.getD (0 + v) 0 := by
        rw [Nat.zero_add]
        exact hj
      have hpos := hseg v j hv hj'
      rw [Nat.zero_add, hshift0] at hpos
      rw [List.getD_eq_getElem?_getD, hpos]
      rfl
    · intro k hk1 hk2
      have hk1' : 0 + (∑ t ∈ Finset.range bufs.length, circ.NumWiresIV.getD (0 + t) 0) ≤ k := by
        rw [Nat.zero_add, hshift0]
        exact hk1
      have := hafter k hk1'
      rw [List.getD_eq_getElem?_getD, this, List.getElem?_replicate_of_lt hk2]
      rfl

/-- C4 witness: the rejection branches applied at concrete inputs — two
buffers against one input variable, and a 16-bit buffer against 8 wires. -/
theorem C4_pack_inputs_formula_witness :
    PadInputsToBoolArray byteVarCircuit [[5], [1]] = .failNil ∧
    PadInputsToBoolArray byteVarCircuit [[1, 1]] = .failNil := by
  refine ⟨?_, ?_⟩
  · exact C4_pack_inputs_formula.2.2.1 byteVarCircuit [[5], [1]] (by decide)
  · exact C4_pack_inputs_formula.2.2.2.1 byteVarCircuit [[1, 1]] (by decide)
      (by decide) ⟨0, by decide, by decide⟩

/-! ### Evaluating the identity circuit -/

theorem identityCircuit_gates_length (n : Nat) : (identityCircuit n).Gates.length = 3 * n := by
  simp [identityCircuit]

theorem identityCircuit_gate_input {n k : Nat} (h : k < n) :
    (identityCircuit n).Gates[k]? = some ⟨GateINPUT, false, []⟩ := by
  have hk : k < 3 * n := by omega
  simp only [identityCircuit, List.getElem?_map, List.getElem?_range hk, Option.map_some']
  rw [identityGateAt, if_pos h]

theorem identityCircuit_gate_output {n i : Nat} (h : i < n) :
    (identityCircuit n).Gates[n + i]? = some ⟨GateOUTPUT, false, [2 * n + i]⟩ := by
  have hk : n + i < 3 * n := by omega
  simp only [identityCircuit, List.getElem?_map, List.getElem?_range hk, Option.map_some']
  rw [identityGateAt, if_neg (by omega), if_pos (by omega)]
  have harg : n + i - n = i := by omega
  rw [harg]

theorem identityCircuit_gate_copy {n i : Nat} (h : i < n) :
    (identityCircuit n).Gates[2 * n + i]? = some ⟨GateCOPY, false, [i]⟩ := by
  have hk : 2 * n + i < 3 * n := by omega
  simp only [identityCircuit, List.getElem?_map, List.getElem?_range hk, Option.map_some']
  rw [identityGateAt, if_neg (by omega), if_neg (by omega)]
  have harg : 2 * n + i - 2 * n = i := by omega
  rw [harg]

/-- Evaluating output wire `i` of the identity circuit from a freshly reset
`visited` vector: the OUTPUT gate recurses into its COPY gate, which recurses
into INPUT gate `i`, producing input bit `i` and memoizing all three gates. -/
theorem identity_eval_gate (n : Nat) (bits : List Bool) (hbits : bits.length = n)
    (i : Nat) (hi : i < n) (f : Nat) (st : EvalSt)
    (hvis : st.visited = List.replicate (3 * n) false)
    (hclen : st.calculated.length = 3 * n)
    (hvlen : st.values.length = 3 * n)
    (hc1 : st.calculated[i]? = some false)
    (hc2 : st.calculated[n + i]? = some false)
    (hc3 : st.calculated[2 * n + i]? = some false) :
    evaluateGate (identityCircuit n) bits (f + 3) (n + i) st =
      .out true (bits.getD i false)
        { visited := ((st.visited.set (n + i) true).set (2 * n + i) true).set i true,
          calculated := ((st.calculated.set i true).set (2 * n + i) true).set (n + i) true,
          values := ((st.values.set i (bits.getD i false)).set (2 * n + i)
            (bits.getD i false)).set (n + i) (bits.getD i false) } := by
  have hn : 0 < n := by omega
  have hb : bits[i]? = some (bits.getD i false) := getElem?_eq_some_getD (by omega)
  -- innermost call: INPUT gate i
  have hinner : evaluateGate (identityCircuit n) bits (f + 1) i
      { st with visited := (st.visited.set (n + i) true).set (2 * n + i) true } =
      .out true (bits.getD i false)
        { st with
          visited := ((st.visited.set (n + i) true).set (2 * n + i) true).set i true,
          calculated := st.calculated.set i true,
          values := st.values.set i (bits.getD i false) } := by
    have hv : ((st.visited.set (n + i) true).set (2 * n + i) true)[i]? = some false := by
      rw [List.getElem?_set_ne (by omega), List.getElem?_set_ne (by omega), hvis]
      exact List.getElem?_replicate_of_lt (by omega)
    simp only [evaluateGate, hv, hc1, identityCircuit_gate_input hi]
    rw [if_pos trivial]
    simp only [dispatchGate, hb]
    simp only [memoStep]
    rw [if_neg (by decide), if_neg (by decide), if_pos trivial,
      if_pos ⟨by simp only [hclen]; omega, by simp only [hvlen]; omega⟩]
  -- middle call: COPY gate 2n+i
  have hmid : evaluateGate (identityCircuit n) bits (f + 2) (2 * n + i)
      { st with visited := st.visited.set (n + i) true } =
      .out true (bits.getD i false)
        { st with
          visited := ((st.visited.set (n + i) true).set (2 * n + i) true).set i true,
          calculated := (st.calculated.set i true).set (2 * n + i) true,
          values := (st.values.set i (bits.getD i false)).set (2 * n + i)
            (bits.getD i false) } := by
    have hv : (st.visited.set (n + i) true)[2 * n + i]? = some false := by
      rw [List.getElem?_set_ne (by omega), hvis]
      exact List.getElem?_replicate_of_lt (by omega)
    rw [show f + 2 = (f + 1) + 1 by omega]
    generalize hgen : f + 1 = g
    rw [hgen] at hinner
    simp only [evaluateGate, hv, hc3, identityCircuit_gate_copy hi,
      List.getElem?_cons_zero, hinner]
    rw [if_neg (by decide), if_neg (by decide), if_neg (by decide), if_neg (by simp)]
    simp only [dispatchGate]
    rw [if_pos (by simp)]
    simp only [memoStep]
    rw [if_pos trivial, if_pos ⟨by simp only [List.length_set, hclen]; omega,
      by simp only [List.length_set, hvlen]; omega⟩]
  -- outer call: OUTPUT gate n+i
  have hv : st.visited[n + i]? = some false := by
    rw [hvis]
    exact List.getElem?_replicate_of_lt (by omega)
  rw [show f + 3 = (f + 2) + 1 by omega]
  generalize hgen : f + 2 = g
  rw [hgen] at hmid
  simp only [evaluateGate, hv, hc2, identityCircuit_gate_output hi,
    List.getElem?_cons_zero, hmid]
  rw [if_neg (by decide), if_neg (by decide), if_neg (by decide), if_neg (by simp)]
  simp only [dispatchGate]
  rw [if_pos (by simp)]
  simp only [memoStep]
  rw [if_pos trivial, if_pos ⟨by simp only [List.length_set, hclen]; omega,
    by simp only [List.length_set, hvlen]; omega⟩]

/-- The output loop of `EvaluateCircuit` on the identity circuit: outputs
`i, i+1, ..., n-1` produce the corresponding input bits in order. -/
theorem identity_eval_loop (n : Nat) (bits : List Bool) (hbits : bits.length = n) :
    ∀ (d i : Nat), i + d = n → ∀ (st : EvalSt),
      st.calculated.length = 3 * n → st.values.length = 3 * n →
      (∀ j : Nat, i ≤ j → j < n →
        st.calculated[j]? = some false ∧ st.calculated[n + j]? = some false ∧
          st.calculated[2 * n + j]? = some false) →
      ∀ acc : List Bool,
        evalLoop (identityCircuit n) bits i d st acc =
          .ok (acc ++ (List.range d).map (fun k => bits.getD (i + k) false))
  | 0, i => fun hin st hclen hvlen hcal acc => by
    simp [evalLoop]
  | d + 1, i => fun hin st hclen hvlen hcal acc => by
    have hi : i < n := by omega
    have hout : getOutputGate (identityCircuit n) i = n + i := rfl
    have hstep := identity_eval_gate n bits hbits i hi (3 * n - 2)
      { st with visited := List.replicate (3 * n) false } rfl hclen hvlen
      (hcal i le_rfl hi).1 (hcal i le_rfl hi).2.1 (hcal i le_rfl hi).2.2
    rw [show (3 * n - 2) + 3 = 3 * n + 1 by omega] at hstep
    simp only [evalLoop, identityCircuit_gates_length, hout, hstep]
    rw [if_pos trivial]
    have hihyp : (i + 1) + d = n := by omega
    have hclen' : (((st.calculated.set i true).set (2 * n + i) true).set (n + i)
        true).length = 3 * n := by
      simp only [List.length_set, hclen]
    have hvlen' : (((st.values.set i (bits.getD i false)).set (2 * n + i)
        (bits.getD i false)).set (n + i) (bits.getD i false)).length = 3 * n := by
      simp only [List.length_set, hvlen]
    have hcal' : ∀ j : Nat, i + 1 ≤ j → j < n →
        (((st.calculated.set i true).set (2 * n + i) true).set (n + i) true)[j]? =
          some false ∧
        (((st.calculated.set i true).set (2 * n + i) true).set (n + i) true)[n + j]? =
          some false ∧
        (((st.calculated.set i true).set (2 * n + i) true).set (n + i) true)[2 * n + j]? =
          some false := by
      intro j hj1 hj2
      refine ⟨?_, ?_, ?_⟩
      · rw [List.getElem?_set_ne (by omega), List.getElem?_set_ne (by omega),
          List.getElem?_set_ne (by omega)]
        exact (hcal j (by omega) hj2).1
      · rw [List.getElem?_set_ne (by omega), List.getElem?_set_ne (by omega),
          List.getElem?_set_ne (by omega)]
        exact (hcal j (by omega) hj2).2.1
      · rw [List.getElem?_set_ne (by omega), List.getElem?_set_ne (by omega),
          List.getElem?_set_ne (by omega)]
        exact (hcal j (by omega) hj2).2.2
    rw [identity_eval_loop n bits hbits d (i + 1) hihyp _ hclen' hvlen' hcal'
      (acc ++ [bits.getD i false])]
    congr 1
    rw [List.range_succ_eq_map, List.map_cons, List.map_map, List.append_assoc]
    simp only [Nat.add_zero, List.singleton_append]
    congr 1
    congr 1
    refine List.map_congr_left fun k _ => ?_
    simp only [Function.comp_apply]
    congr 1
    omega

theorem map_getD_range (l : List Bool) :
    (List.range l.length).map (fun k => l.getD k false) = l := by
  refine List.ext_getElem (by simp) fun k h1 h2 => ?_
  simp only [List.getElem_map, List.getElem_range]
  exact List.getD_eq_getElem l false h2

/-- Evaluating the identity circuit returns the input bits unchanged. -/
theorem identity_eval (n : Nat) (hn : 0 < n) (bits : List Bool) (hbits : bits.length = n) :
    EvaluateCircuit (identityCircuit n) bits = .ok bits := by
  have hin : (identityCircuit n).NumInputWires = n := rfl
  have hon : (identityCircuit n).NumOutputWires = n := rfl
  unfold EvaluateCircuit
  rw [if_neg (by rw [hin, hon]; omega), hon, identityCircuit_gates_length]
  have hcal : ∀ j : Nat, 0 ≤ j → j < n →
      (List.replicate (3 * n) false)[j]? = some false ∧
      (List.replicate (3 * n) false)[n + j]? = some false ∧
      (List.replicate (3 * n) false)[2 * n + j]? = some false := by
    intro j _ hj
    refine ⟨List.getElem?_replicate_of_lt (by omega),
      List.getElem?_replicate_of_lt (by omega),
      List.getElem?_replicate_of_lt (by omega)⟩
  rw [identity_eval_loop n bits hbits n 0 (by omega) _ (by simp) (by simp) hcal []]
  simp only [List.nil_append, Nat.zero_add]
  rw [show n = bits.length from hbits.symm, map_getD_range]

/-! ### Packing bit vectors back into bytes -/

theorem testBit_sum_range : ∀ (t B : Nat),
    (∑ r ∈ Finset.range t, if B.testBit r then 2 ^ r else 0) = B % 2 ^ t
  | 0, B => by simp [Nat.mod_one]
  | t + 1, B => by
    rw [Finset.sum_range_succ, testBit_sum_range t B, Nat.mod_pow_succ,
      Nat.testBit_to_div_mod]
    rcases Nat.mod_two_eq_zero_or_one (B / 2 ^ t) with h | h
    · rw [h]
      simp
    · rw [h]
      simp

theorem getD_set_self {l : List Nat} {a x : Nat} (h : a < l.length) :
    (l.set a x).getD a 0 = x := by
  rw [List.getD_eq_getElem?_getD, List.getElem?_set_self h]
  rfl

theorem getD_set_ne {l : List Nat} {a m x : Nat} (h : a ≠ m) :
    (l.set a x).getD m 0 = l.getD m 0 := by
  rw [List.getD_eq_getElem?_getD, List.getElem?_set_ne h, ← List.getD_eq_getElem?_getD]

theorem getD_replicate_zero (L m : Nat) : (List.replicate L (0 : Nat)).getD m 0 = 0 := by
  rw [List.getD_eq_getElem?_getD, List.getElem?_replicate]
  split <;> rfl

/-- Characterization of the `boolArrayToBytes` loop: byte `m` of the final
result accumulates, modulo 256, one `2^((i+k) % 8)` for every set bit `k` of
the remaining input that lands in byte `L - 1 - m`. -/
theorem boolBytesLoop_char (L : Nat) : ∀ (rest : List Bool) (i : Nat) (result : List Nat),
    result.length = L →
    (∀ m : Nat, result.getD m 0 < 256) →
    i + rest.length ≤ 8 * L →
    (boolBytesLoop L rest i result).length = L ∧
    ∀ m : Nat, m < L →
      (boolBytesLoop L rest i result).getD m 0 =
        (result.getD m 0 +
          ∑ k ∈ Finset.range rest.length,
            (if rest.getD k false = true ∧ (i + k) / 8 = L - 1 - m then 2 ^ ((i + k) % 8)
              else 0)) % 256
  | [], i, result => fun hlen hlt _ => by
    refine ⟨hlen, fun m _ => ?_⟩
    rw [boolBytesLoop]
    simp only [List.length_nil, Finset.range_zero, Finset.sum_empty, Nat.add_zero]
    exact (Nat.mod_eq_of_lt (hlt m)).symm
  | b :: rest, i, result => fun hlen hlt hcap => by
    have hcap1 : i + rest.length + 1 ≤ 8 * L := by
      simp only [List.length_cons] at hcap
      omega
    have hi8 : i / 8 < L := by omega
    have hsum : ∀ m : Nat,
        (∑ k ∈ Finset.range (b :: rest).length,
          (if (b :: rest).getD k false = true ∧ (i + k) / 8 = L - 1 - m
            then 2 ^ ((i + k) % 8) else 0)) =
        (∑ k ∈ Finset.range rest.length,
          (if rest.getD k false = true ∧ (i + 1 + k) / 8 = L - 1 - m
            then 2 ^ ((i + 1 + k) % 8) else 0)) +
        (if b = true ∧ i / 8 = L - 1 - m then 2 ^ (i % 8) else 0) := by
      intro m
      rw [List.length_cons, Finset.sum_range_succ']
      congr 1
      refine Finset.sum_congr rfl fun k _ => ?_
      rw [List.getD_cons_succ, show i + (k + 1) = i + 1 + k by omega]
    rw [boolBytesLoop]
    cases b with
    | false =>
      obtain ⟨hl, hchar⟩ := boolBytesLoop_char L rest (i + 1) result hlen hlt (by omega)
      refine ⟨hl, fun m hm => ?_⟩
      rw [if_neg (by simp), hchar m hm, hsum m, if_neg (by simp)]
      congr 1
    | true =>
      rw [if_pos rfl]
      have hlen1 : (result.set (L - i / 8 - 1)
          ((result.getD (L - i / 8 - 1) 0 + 1 <<< (i % 8)) % 256)).length = L := by
        rw [List.length_set, hlen]
      have hlt1 : ∀ m : Nat, (result.set (L - i / 8 - 1)
          ((result.getD (L - i / 8 - 1) 0 + 1 <<< (i % 8)) % 256)).getD m 0 < 256 := by
        intro m
        rcases eq_or_ne (L - i / 8 - 1) m with rfl | hne
        · rw [getD_set_self (by omega)]
          exact Nat.mod_lt _ (by omega)
        · rw [getD_set_ne hne]
          exact hlt m
      obtain ⟨hl, hchar⟩ := boolBytesLoop_char L rest (i + 1) _ hlen1 hlt1 (by omega)
      refine ⟨by rw [hl], fun m hm => ?_⟩
      rw [hchar m hm, hsum m]
      rcases eq_or_ne (i / 8) (L - 1 - m) with heq | hne
      · have hm' : L - i / 8 - 1 = m := by omega
        rw [if_pos ⟨rfl, heq⟩, hm', getD_set_self (by omega)]
        rw [Nat.one_shiftLeft, Nat.mod_add_mod]
        congr 1
        omega
      · have hm' : L - i / 8 - 1 ≠ m := by omega
        rw [if_neg (by simp [hne]), getD_set_ne hm']
        congr 1

theorem boolArrayToBytes_length (input : List Bool) :
    (boolArrayToBytes input).length = (input.length + 7) / 8 := by
  obtain ⟨hl, -⟩ := boolBytesLoop_char ((input.length + 7) / 8) input 0
    (List.replicate ((input.length + 7) / 8) 0) (by simp)
    (fun m => by rw [getD_replicate_zero]; omega) (by omega)
  exact hl

theorem boolArrayToBytes_getD (input : List Bool) (m : Nat)
    (hm : m < (input.length + 7) / 8) :
    (boolArrayToBytes input).getD m 0 =
      (∑ k ∈ Finset.range input.length,
        (if input.getD k false = true ∧ k / 8 = (input.length + 7) / 8 - 1 - m
          then 2 ^ (k % 8) else 0)) % 256 := by
  obtain ⟨-, hchar⟩ := boolBytesLoop_char ((input.length + 7) / 8) input 0
    (List.replicate ((input.length + 7) / 8) 0) (by simp)
    (fun m => by rw [getD_replicate_zero]; omega) (by omega)
  have hme := hchar m hm
  rw [getD_replicate_zero] at hme
  simp only [Nat.zero_add] at hme
  exact hme

/-- Packing the bit vector of a buffer (with `8·len(buf) ≤ n` wires) back
into bytes yields the buffer left-padded with zero bytes to `ceil(n/8)`. -/
theorem bytes_of_packed (n : Nat) (buf : List Nat) (hbytes : ∀ b ∈ buf, b < 256)
    (hfit : 8 * buf.length ≤ n) :
    boolArrayToBytes ((List.range n).map (fun j => bufBit buf j)) =
      List.replicate ((n + 7) / 8 - buf.length) 0 ++ buf := by
  have hlenpb : ((List.range n).map (fun j => bufBit buf j)).length = n := by simp
  have hnL : n ≤ 8 * ((n + 7) / 8) := by omega
  have hbufL : buf.length ≤ (n + 7) / 8 := by omega
  have hpbk : ∀ k : Nat, k < n →
      ((List.range n).map (fun j => bufBit buf j)).getD k false = bufBit buf k := by
    intro k hk
    rw [List.getD_eq_getElem?_getD, List.getElem?_map, List.getElem?_range hk]
    rfl
  refine List.ext_getElem ?_ fun m h1 h2 => ?_
  · rw [boolArrayToBytes_length, hlenpb]
    simp only [List.length_append, List.length_replicate]
    omega
  · have hmL : m < (n + 7) / 8 := by
      rw [boolArrayToBytes_length, hlenpb] at h1
      exact h1
    rw [← List.getD_eq_getElem _ 0 h1, ← List.getD_eq_getElem _ 0 h2]
    have hgd := boolArrayToBytes_getD ((List.range n).map (fun j => bufBit buf j)) m
      (by rw [hlenpb]; exact hmL)
    rw [hlenpb] at hgd
    rw [hgd]
    rcases Nat.lt_or_ge ((n + 7) / 8 - 1 - m) buf.length with hjlt | hjge
    · -- the byte region holding the buffer
      have hZm : (n + 7) / 8 - buf.length ≤ m := by omega
      have h8jn : 8 * ((n + 7) / 8 - 1 - m) + 8 ≤ n := by omega
      have hsplit1 := Finset.sum_Ico_consecutive
        (fun k => if ((List.range n).map (fun j => bufBit buf j)).getD k false = true ∧
          k / 8 = (n + 7) / 8 - 1 - m then 2 ^ (k % 8) else 0)
        (show 0 ≤ 8 * ((n + 7) / 8 - 1 - m) by omega)
        (show 8 * ((n + 7) / 8 - 1 - m) ≤ n by omega)
      have hsplit2 := Finset.sum_Ico_consecutive
        (fun k => if ((List.range n).map (fun j => bufBit buf j)).getD k false = true ∧
          k / 8 = (n + 7) / 8 - 1 - m then 2 ^ (k % 8) else 0)
        (show 8 * ((n + 7) / 8 - 1 - m) ≤ 8 * ((n + 7) / 8 - 1 - m) + 8 by omega)
        (show 8 * ((n + 7) / 8 - 1 - m) + 8 ≤ n by omega)
      rw [← Nat.Ico_zero_eq_range, ← hsplit1, ← hsplit2]
      have hleft : (∑ k ∈ Finset.Ico 0 (8 * ((n + 7) / 8 - 1 - m)),
          (if ((List.range n).map (fun j => bufBit buf j)).getD k false = true ∧
            k / 8 = (n + 7) / 8 - 1 - m then 2 ^ (k % 8) else 0)) = 0 := by
        refine Finset.sum_eq_zero fun k hk => ?_
        rw [Finset.mem_Ico] at hk
        exact if_neg fun hcon => by omega
      have hright : (∑ k ∈ Finset.Ico (8 * ((n + 7) / 8 - 1 - m) + 8) n,
          (if ((List.range n).map (fun j => bufBit buf j)).getD k false = true ∧
            k / 8 = (n + 7) / 8 - 1 - m then 2 ^ (k % 8) else 0)) = 0 := by
        refine Finset.sum_eq_zero fun k hk => ?_
        rw [Finset.mem_Ico] at hk
        exact if_neg fun hcon => by omega
      have hmid : (∑ k ∈ Finset.Ico (8 * ((n + 7) / 8 - 1 - m))
            (8 * ((n + 7) / 8 - 1 - m) + 8),
          (if ((List.range n).map (fun j => bufBit buf j)).getD k false = true ∧
            k / 8 = (n + 7) / 8 - 1 - m then 2 ^ (k % 8) else 0)) =
          buf.getD (buf.length - 1 - ((n + 7) / 8 - 1 - m)) 0 % 256 := by
        rw [Finset.sum_Ico_eq_sum_range,
          show 8 * ((n + 7) / 8 - 1 - m) + 8 - 8 * ((n + 7) / 8 - 1 - m) = 8 by omega]
        have hterm : ∀ k ∈ Finset.range 8,
            (if ((List.range n).map (fun j => bufBit buf j)).getD
                (8 * ((n + 7) / 8 - 1 - m) + k) false = true ∧
              (8 * ((n + 7) / 8 - 1 - m) + k) / 8 = (n + 7) / 8 - 1 - m
              then 2 ^ ((8 * ((n + 7) / 8 - 1 - m) + k) % 8) else 0) =
            (if (buf.getD (buf.length - 1 - ((n + 7) / 8 - 1 - m)) 0).testBit k
              then 2 ^ k else 0) := by
          intro k hk
          rw [Finset.mem_range] at hk
          rw [hpbk _ (by omega)]
          have hdiv : (8 * ((n + 7) / 8 - 1 - m) + k) / 8 = (n + 7) / 8 - 1 - m := by
            omega
          have hmod : (8 * ((n + 7) / 8 - 1 - m) + k) % 8 = k := by omega
          simp only [bufBit, hdiv, hmod]
          rw [if_pos (show (n + 7) / 8 - 1 - m < buf.length by omega),
            and_shift_ne_zero,
            show buf.length - ((n + 7) / 8 - 1 - m) - 1 =
              buf.length - 1 - ((n + 7) / 8 - 1 - m) by omega]
          simp
        rw [Finset.sum_congr rfl hterm, testBit_sum_range,
          show (2 : Nat) ^ 8 = 256 by norm_num]
      rw [hleft, hright, hmid]
      have hBmem : buf.getD (buf.length - 1 - ((n + 7) / 8 - 1 - m)) 0 ∈ buf :=
        List.getElem?_mem (getElem?_eq_some_getD (by omega))
      have hB : buf.getD (buf.length - 1 - ((n + 7) / 8 - 1 - m)) 0 < 256 := hbytes _ hBmem
      rw [Nat.zero_add, Nat.mod_eq_of_lt hB, Nat.add_zero, Nat.mod_eq_of_lt hB]
      conv_rhs => rw [List.getD_eq_getElem?_getD,
        List.getElem?_append_right (by simp only [List.length_replicate]; omega),
        List.length_replicate,
        show m - ((n + 7) / 8 - buf.length) =
          buf.length - 1 - ((n + 7) / 8 - 1 - m) by omega]
      rw [List.getD_eq_getElem?_getD]
    · -- the zero-padding region
      have hsum0 : (∑ k ∈ Finset.range n,
          (if ((List.range n).map (fun j => bufBit buf j)).getD k false = true ∧
            k / 8 = (n + 7) / 8 - 1 - m then 2 ^ (k % 8) else 0)) = 0 := by
        refine Finset.sum_eq_zero fun k hk => ?_
        rw [Finset.mem_range] at hk
        rcases eq_or_ne (k / 8) ((n + 7) / 8 - 1 - m) with heq | hne
        · refine if_neg fun hcon => ?_
          rw [hpbk k hk, bufBit, if_neg (by omega)] at hcon
          exact Bool.noConfusion hcon.1
        · exact if_neg fun hcon => hne hcon.2
      rw [hsum0]
      rw [List.getD_eq_getElem?_getD,
        List.getElem?_append_left (by simp only [List.length_replicate]; omega),
        List.getElem?_replicate_of_lt (by omega)]
      rfl

/-- Packing a single buffer into the identity circuit's lone input variable
fills the `n` wires with the buffer's bits in wire order. -/
theorem identity_pack (n : Nat) (buf : List Nat) (hfit : 8 * buf.length ≤ n) :
    PadInputsToBoolArray (identityCircuit n) [buf] =
      PadOut.ok ((List.range n).map (fun j => bufBit buf j)) := by
  obtain ⟨result', heq, hlen, -, hseg, -⟩ :=
    padVars_ok (identityCircuit n) [buf] 0 0 (List.replicate n false)
      (by simp [identityCircuit])
      (by
        intro k hk
        have hk0 : k = 0 := by
          simp only [List.length_cons, List.length_nil] at hk
          omega
        subst hk0
        simp only [List.getD_cons_zero, Nat.add_zero]
        show buf.length * 8 ≤ ([n].getD 0 0)
        simp only [List.getD_cons_zero]
        omega)
      (by
        show 0 + (∑ t ∈ Finset.range 1, (identityCircuit n).NumWiresIV.getD (0 + t) 0) ≤
          (List.replicate n false).length
        rw [Finset.sum_range_one, List.length_replicate]
        show 0 + ([n].getD 0 0) ≤ n
        simp only [List.getD_cons_zero]
        omega)
  have hres : result' = (List.range n).map (fun j => bufBit buf j) := by
    have hlen' : result'.length = n := by
      rw [hlen, List.length_replicate]
    refine List.ext_getElem? fun k => ?_
    rcases Nat.lt_or_ge k n with hk | hk
    · have h0 := hseg 0 k (by simp) hk
      simp only [Finset.sum_range_zero, Nat.add_zero, Nat.zero_add,
        List.getD_cons_zero] at h0
      rw [h0, List.getElem?_map, List.getElem?_range hk]
      rfl
    · rw [List.getElem?_eq_none (by omega),
        List.getElem?_eq_none (by rw [List.length_map, List.length_range]; omega)]
  rw [show PadInputsToBoolArray (identityCircuit n) [buf]
      = padVars (identityCircuit n) [buf] 0 0 (List.replicate n false) from rfl,
    heq, hres]

/-- Decoding the identity circuit's single `n`-wire output variable packs
the whole output bit vector into one byte buffer. -/
theorem decode_identity (n : Nat) (pb : List Bool) (hlen : pb.length = n) :
    DecodeOutputVariables (identityCircuit n) pb = DecOut.ok [boolArrayToBytes pb] := by
  subst hlen
  have hne : ¬ ((identityCircuit pb.length).NumOutputWires ≠ pb.length) := by
    simp [identityCircuit]
  have h0 : DecodeOutputVariables (identityCircuit pb.length) pb
      = decodeVars (identityCircuit pb.length) pb 1 0 0 [] := by
    simp only [DecodeOutputVariables]
    rw [if_neg hne]
    rfl
  have hov : (identityCircuit pb.length).NumWiresOV[0]? = some pb.length := rfl
  rw [h0]
  simp only [decodeVars, hov]
  rw [if_pos (by omega)]
  simp only [decodeVars, List.nil_append, List.drop_zero, List.take_length]

/-- Stripping leading zeros ignores a block of prepended zero bytes. -/
theorem trimBytes_append_zeros (Z : Nat) (buf : List Nat) :
    trimBytes (List.replicate Z 0 ++ buf) = trimBytes buf := by
  induction Z with
  | zero => rfl
  | succ z ih =>
    simp only [trimBytes] at ih ⊢
    rw [List.replicate_succ, List.cons_append, List.dropWhile_cons,
      if_pos (by decide)]
    exact ih

/-- C3: for the identity circuit on `n` wires (one Copy gate per input wire
wired straight to the matching output wire, a single input and a single
output variable spanning all wires) and any byte buffer whose bit length
fits the variable's wire allotment, packing, evaluating and decoding
reproduces the buffer zero-padded on the left to `ceil(n/8)` bytes, which
trims back to the same minimal bytes as the original buffer. -/
theorem C3_identity_roundtrip (n : Nat) (hn : 0 < n) (buf : List Nat)
    (hbytes : ∀ b ∈ buf, b < 256) (hfit : 8 * buf.length ≤ n) :
    ∃ packedBits : List Bool,
      PadInputsToBoolArray (identityCircuit n) [buf] = PadOut.ok packedBits ∧
      EvaluateCircuit (identityCircuit n) packedBits = EvalOut.ok packedBits ∧
      DecodeOutputVariables (identityCircuit n) packedBits =
        DecOut.ok [List.replicate ((n + 7) / 8 - buf.length) 0 ++ buf] ∧
      trimBytes (List.replicate ((n + 7) / 8 - buf.length) 0 ++ buf) = trimBytes buf := by
  refine ⟨(List.range n).map (fun j => bufBit buf j),
    identity_pack n buf hfit, identity_eval n hn _ (by simp),
    ?_, trimBytes_append_zeros _ buf⟩
  rw [decode_identity n _ (by simp), bytes_of_packed n buf hbytes hfit]

/-- The round trip at `n = 12` wires and buffer `[5]`: the packed circuit
evaluates and decodes to `[0, 5]`, which trims to `[5]`. -/
theorem C3_identity_roundtrip_witness :
    ∃ packedBits : List Bool,
      PadInputsToBoolArray (identityCircuit 12) [[5]] = PadOut.ok packedBits ∧
      EvaluateCircuit (identityCircuit 12) packedBits = EvalOut.ok packedBits ∧
      DecodeOutputVariables (identityCircuit 12) packedBits = DecOut.ok [[0, 5]] ∧
      trimBytes [0, 5] = trimBytes [5] :=
  C3_identity_roundtrip 12 (by decide) [5] (by decide) (by decide)


end Toygarble
